import Mathlib

/-!
# Verification of the JPEG segment compositor of ImageTagsUpdater

Shallow embedding of the metadata-embedding core (text sanitizer, marker
scanner, XMP/IPTC segment builders, segment splicer, orchestrator policy)
as executable Lean definitions over `List Nat` byte buffers and `String`
text, together with proofs and refutations of the specification claims.

Conventions of the embedding:
* a JavaScript `Uint8Array` is a `List Nat` whose entries are bytes;
  an out-of-bounds read (`undefined` in JavaScript, which compares unequal
  to every number) is modelled by the default value `256`, which differs
  from every byte;
* `(hi << 8) | lo` on bytes is embedded as `hi * 256 + lo`, and
  `(n >> 8) & 0xff` / `n & 0xff` on a nonnegative length as
  `n / 256 % 256` / `n % 256` (equal for the in-range values that occur);
* JavaScript strings are Lean `String`s; the chained single-character
  `String.replace` calls of the source are embedded as per-character maps,
  which agree with the sequential semantics because no replacement string
  contains a character that a later replacement in the chain targets.
-/

set_option maxHeartbeats 1000000
set_option maxRecDepth 8192

namespace ImageTagsUpdater

/-- Read a byte of the buffer; out of bounds gives `256` (JS `undefined`). -/
def getByte (b : List Nat) (i : Nat) : Nat := b.getD i 256

/-- JS `buffer.slice(s, e)` (clamping, empty when `e ≤ s`). -/
def jsSlice (b : List Nat) (s e : Nat) : List Nat := (b.drop s).take (e - s)

/-- `jpegBytes[0] === 0xff && jpegBytes[1] === 0xd8` (the SOI check). -/
def isJpeg (b : List Nat) : Bool := getByte b 0 == 0xff && getByte b 1 == 0xd8

/-- The 16-bit big-endian segment length `(b[off+2] << 8) | b[off+3]`. -/
def readLen (b : List Nat) (off : Nat) : Nat :=
  getByte b (off + 2) * 256 + getByte b (off + 3)

/-! ## UTF-8 encoder (model of `TextEncoder.encode`) -/

/-- UTF-8 encoding of one Unicode scalar value. -/
def utf8Char (c : Char) : List Nat :=
  let n := c.toNat
  if n < 0x80 then [n]
  else if n < 0x800 then [0xc0 + n / 64, 0x80 + n % 64]
  else if n < 0x10000 then [0xe0 + n / 4096, 0x80 + n / 64 % 64, 0x80 + n % 64]
  else [0xf0 + n / 262144, 0x80 + n / 4096 % 64, 0x80 + n / 64 % 64, 0x80 + n % 64]

/-- `utf8(s)`: the UTF-8 bytes of a string (`new TextEncoder().encode(s)`). -/
def utf8Str (s : String) : List Nat := s.data.flatMap utf8Char

/-! ## Text sanitizer -/

/-- Apply a character-to-text map, leaving unmapped characters alone. -/
def mapChar (pairs : List (Char × List Char)) (c : Char) : List Char :=
  match pairs.find? (fun p => p.1 == c) with
  | some p => p.2
  | none => [c]

/-- The single-character entries of the Serbian transliteration map. -/
def translitPairs : List (Char × List Char) :=
  [('Š', ['S']), ('š', ['s']), ('Đ', ['D', 'J']), ('đ', ['d', 'j']),
   ('Č', ['C']), ('č', ['c']), ('Ć', ['C']), ('ć', ['c']),
   ('Ž', ['Z']), ('ž', ['z'])]

/-- Single-character part of the Serbian transliteration map. -/
def translitSingle (c : Char) : List Char := mapChar translitPairs c

/-- The global replace of `transliterateSerbian`: the digraph alternatives
`DŽ`/`dž` are tried first at every position, then the single letters. -/
def translitChars : List Char → List Char
  | [] => []
  | 'D' :: 'Ž' :: rest => 'D' :: 'Z' :: translitChars rest
  | 'd' :: 'ž' :: rest => 'd' :: 'z' :: translitChars rest
  | c :: rest => translitSingle c ++ translitChars rest

/-- `transliterateSerbian`: maps Serbian letters (and the `DŽ`/`dž`
digraphs) to ASCII equivalents; all other characters pass through. -/
def transliterateSerbian (s : String) : String := ⟨translitChars s.data⟩

/-- The smart-punctuation replacements of `sanitizeAsciiText`. -/
def punctPairs : List (Char × List Char) :=
  [('–', ['-']), ('—', ['-']), ('“', ['"']), ('”', ['"']), ('„', ['"']),
   ('’', ['\'']), ('‘', ['\'']), ('…', ['.', '.', '.']), ('•', ['*']),
   ('™', ['(', 'T', 'M', ')']), ('®', ['(', 'R', ')']), ('©', ['(', 'C', ')'])]

/-- Smart-punctuation normalization: the chain of single-character
`replace` calls of `sanitizeAsciiText`, as a per-character map. -/
def punctChar (c : Char) : List Char := mapChar punctPairs c

/-- The decomposition table of the NFKD model. -/
def nfkdPairs : List (Char × List Char) :=
  [('á', ['a', '́']),
   ('à', ['a', '̀']),
   ('â', ['a', '̂']),
   ('ä', ['a', '̈']),
   ('é', ['e', '́']),
   ('è', ['e', '̀']),
   ('ê', ['e', '̂']),
   ('ë', ['e', '̈']),
   ('í', ['i', '́']),
   ('î', ['i', '̂']),
   ('ó', ['o', '́']),
   ('ô', ['o', '̂']),
   ('ö', ['o', '̈']),
   ('ú', ['u', '́']),
   ('û', ['u', '̂']),
   ('ü', ['u', '̈']),
   ('ý', ['y', '́']),
   ('ñ', ['n', '̃']),
   ('ç', ['c', '̧']),
   ('č', ['c', '̌']),
   ('ć', ['c', '́']),
   ('š', ['s', '̌']),
   ('ž', ['z', '̌'])]

/-- Modelled from the spec: `String.prototype.normalize("NFKD")` is a
JavaScript platform builtin (not part of this repository), applied at the
end of `sanitizeAsciiText`.  Embedded as per-character canonical
decomposition for a table of common precomposed Latin letters; every
ASCII character (and any character outside the table) decomposes to
itself, which is the NFKD behaviour the theorems rely on. -/
def nfkdChar (c : Char) : List Char := mapChar nfkdPairs c

/-- `sanitizeAsciiText`: transliterate, normalize punctuation, apply
NFKD decomposition, then drop every code point above `0x7f`. -/
def sanitizeAsciiText (s : String) : String :=
  let t := transliterateSerbian s
  let t := String.mk (t.data.flatMap punctChar)
  let t := String.mk (t.data.flatMap nfkdChar)
  ⟨t.data.filter (fun c => c.toNat ≤ 0x7f)⟩

/-! ## XMP segment builder -/

/-- `xmlEscape`, one character: the source's chain of five global single
character replaces, which equals this per-character map because no
replacement string contains a character replaced later in the chain. -/
def xmlEscapePairs : List (Char × List Char) :=
  [('&', "&amp;".data), ('<', "&lt;".data), ('>', "&gt;".data),
   ('"', "&quot;".data), ('\'', "&apos;".data)]

def xmlEscapeChar (c : Char) : List Char := mapChar xmlEscapePairs c

/-- `xmlEscape`: escape the XML metacharacters. -/
def xmlEscape (s : String) : String := ⟨s.data.flatMap xmlEscapeChar⟩

/-- `buildXmpXml`: the minimal XMP packet with xpacket envelope. -/
def buildXmpXml (title description : String) (keywordsArr : List String) : String :=
  let kws := keywordsArr.filter (fun k => k ≠ "")
  let bagItems :=
    String.join (kws.map (fun k => "<rdf:li>" ++ xmlEscape k ++ "</rdf:li>"))
  let inner :=
    "<x:xmpmeta xmlns:x=\"adobe:ns:meta/\">" ++
    "<rdf:RDF xmlns:rdf=\"http://www.w3.org/1999/02/22-rdf-syntax-ns#\">" ++
    "<rdf:Description xmlns:dc=\"http://purl.org/dc/elements/1.1/\" " ++
    "xmlns:xmp=\"http://ns.adobe.com/xap/1.0/\">" ++
    "<dc:title><rdf:Alt><rdf:li xml:lang=\"x-default\">" ++ xmlEscape title ++
    "</rdf:li></rdf:Alt></dc:title>" ++
    "<dc:description><rdf:Alt><rdf:li xml:lang=\"x-default\">" ++
    xmlEscape description ++ "</rdf:li></rdf:Alt></dc:description>" ++
    "<dc:subject><rdf:Bag>" ++ bagItems ++ "</rdf:Bag></dc:subject>" ++
    "</rdf:Description>" ++ "</rdf:RDF>" ++ "</x:xmpmeta>"
  "<?xpacket begin=\"\uFEFF\" id=\"W5M0MpCehiHzreSzNTczkc9d\"?>" ++ inner ++
    "<?xpacket end=\"w\"?>"

/-- The XMP APP1 preamble `"http://ns.adobe.com/xap/1.0/\0"` (29 bytes). -/
def xmpSig : List Nat := utf8Str "http://ns.adobe.com/xap/1.0/\x00"

/-- `buildXmpSegment`: wrap the packet as an APP1 segment; the declared
length is `payload.length + 2`, split into two bytes by
`(length >> 8) & 0xff` and `length & 0xff`. -/
def buildXmpSegment (xml : String) : List Nat :=
  let payload := xmpSig ++ utf8Str xml
  let length := payload.length + 2
  [0xff, 0xe1, length / 256 % 256, length % 256] ++ payload

/-! ## Marker scanner -/

/-- Does the buffer match `sig` at `off`?  The source compares
`jpegBytes[off + i] !== sig[i]` without a bounds check; an out-of-bounds
read (`256` here, `undefined` in JS) differs from every signature byte. -/
def sigMatchesAt (b : List Nat) (off : Nat) (sig : List Nat) : Bool :=
  (List.range sig.length).all (fun i => getByte b (off + i) == sig.getD i 0)

/-- The scan loop of `findExistingXmp`: walk the marker stream from `off`
and report the first APP1 segment carrying the XMP preamble as
`(start, totalLen)` with `totalLen = 2 + len`.  The loop advances the
offset by at least 2 per iteration, so `fuel = b.length` iterations are
never exhausted; the fuel-0 case returns the same value as the loop-exit
case, making the result fuel-independent (see `findXmpAux_fuel`). -/
def findXmpAux (b : List Nat) : Nat → Nat → Option (Nat × Nat)
  | 0, _ => none
  | fuel + 1, off =>
    if off + 4 ≤ b.length then
      if getByte b off ≠ 0xff then none
      else if getByte b (off + 1) = 0xda then none
      else if getByte b (off + 1) = 0xd8 ∨ getByte b (off + 1) = 0xd9 then
        findXmpAux b fuel (off + 2)
      else if getByte b (off + 1) = 0xe1 ∧ sigMatchesAt b (off + 4) xmpSig = true then
        some (off, 2 + readLen b off)
      else
        findXmpAux b fuel (off + 2 + readLen b off)
    else none

/-- `findExistingXmp`: `null` when the buffer lacks SOI. -/
def findExistingXmp (b : List Nat) : Option (Nat × Nat) :=
  if isJpeg b then findXmpAux b b.length 2 else none

/-- `replaceSegment`: splice `newSeg` in place of
`[start, start + totalLen)` (the source copies the three spans into a
fresh `Uint8Array`). -/
def replaceSegment (b : List Nat) (start totalLen : Nat) (newSeg : List Nat) : List Nat :=
  b.take start ++ newSeg ++ b.drop (start + totalLen)

/-- The insertion-position loop shared verbatim by `insertXmpIntoJpeg`
and `insertIptcIntoJpeg`: track the end of the most recently seen APPn
(`0xE0`–`0xEF`) segment, stopping at SOS or a broken marker prefix.
Fuelled like `findXmpAux`; the fuel-0 case equals the loop-exit case. -/
def insertAppScan (b : List Nat) : Nat → Nat → Nat → Nat
  | 0, _, insertPos => insertPos
  | fuel + 1, off, insertPos =>
    if off + 4 ≤ b.length then
      if getByte b off ≠ 0xff then insertPos
      else if getByte b (off + 1) = 0xda then insertPos
      else if getByte b (off + 1) = 0xd8 ∨ getByte b (off + 1) = 0xd9 then
        insertAppScan b fuel (off + 2) insertPos
      else if 0xe0 ≤ getByte b (off + 1) ∧ getByte b (off + 1) ≤ 0xef then
        insertAppScan b fuel (off + 2 + readLen b off) (off + 2 + readLen b off)
      else
        insertAppScan b fuel (off + 2 + readLen b off) insertPos
    else insertPos

/-- `insertXmpIntoJpeg`: replace an existing XMP APP1 segment, else
insert after the last APPn segment (default: right after SOI). -/
def insertXmpIntoJpeg (b : List Nat) (xmpSeg : List Nat) : List Nat :=
  if isJpeg b = false then b
  else
    match findExistingXmp b with
    | some (start, totalLen) => replaceSegment b start totalLen xmpSeg
    | none =>
      let pos := insertAppScan b b.length 2 2
      b.take pos ++ xmpSeg ++ b.drop pos

/-- `insertIptcIntoJpeg`: insert after the last APPn segment. -/
def insertIptcIntoJpeg (b : List Nat) (iptcSeg : List Nat) : List Nat :=
  if isJpeg b = false then b
  else
    let pos := insertAppScan b b.length 2 2
    b.take pos ++ iptcSeg ++ b.drop pos

/-! ## IPTC / Photoshop segment builder -/

/-- `pushRecord`: one IIM record
`0x1C, record, dataset, lenHi, lenLo, data…` with the length bytes
`(len >> 8) & 0xff` and `len & 0xff`. -/
def serializeIptcRecord (record dataset : Nat) (dataBytes : List Nat) : List Nat :=
  let len := dataBytes.length
  [0x1c, record, dataset, len / 256 % 256, len % 256] ++ dataBytes

/-- The IIM payload of `buildIptcSegment`: envelope charset record,
record-version record, optional ObjectName and Caption records, then one
Keywords record per non-empty keyword. -/
def iptcPayload (title caption : String) (keywordsArr : List String) : List Nat :=
  let kws := keywordsArr.filter (fun k => k ≠ "")
  serializeIptcRecord 1 90 (utf8Str "\x1B%G") ++
  serializeIptcRecord 2 0 [0x00, 0x04] ++
  (if title ≠ "" then serializeIptcRecord 2 5 (utf8Str title) else []) ++
  (if caption ≠ "" then serializeIptcRecord 2 120 (utf8Str caption) else []) ++
  kws.flatMap (fun k => serializeIptcRecord 2 25 (utf8Str k))

/-- The Photoshop APP13 header `"Photoshop 3.0\0"` (14 bytes). -/
def psHeader : List Nat := utf8Str "Photoshop 3.0\x00"

/-- `buildIptcSegment`: wrap the IIM payload in an 8BIM resource block
(resource id `0x0404`, empty even-padded Pascal name, 4-byte big-endian
size, data padded to even length) and frame it as an APP13 segment. -/
def buildIptcSegment (title caption : String) (keywordsArr : List String) : List Nat :=
  let payloadBytes := iptcPayload title caption keywordsArr
  let size := payloadBytes.length
  let dataPad := if size % 2 = 1 then [0x00] else []
  let block :=
    psHeader ++ utf8Str "8BIM" ++ [0x04, 0x04] ++ [0x00, 0x00] ++
    [size / 16777216 % 256, size / 65536 % 256, size / 256 % 256, size % 256] ++
    payloadBytes ++ dataPad
  let length := block.length + 2
  [0xff, 0xed, length / 256 % 256, length % 256] ++ block

/-- The APP13 Photoshop-header check of `removePhotoshopApp13Segments`,
including its explicit bounds test (`offset + 4 + i >= length` makes the
segment count as not-Photoshop). -/
def isPhotoshopAt (b : List Nat) (off : Nat) : Bool :=
  (List.range psHeader.length).all
    (fun i => off + 4 + i < b.length && getByte b (off + 4 + i) == psHeader.getD i 0)

/-- The scan loop of `removePhotoshopApp13Segments`, returning the kept
bytes from `off` on.  Note: unlike the other scanners this loop has no
`0xD8`/`0xD9` branch; those markers are treated as length-bearing
segments.  On a broken marker prefix or loop exit the remaining bytes are
kept (the source's trailing `parts.push(jpegBytes.slice(offset))`). -/
def removeAux (b : List Nat) : Nat → Nat → List Nat
  | 0, off => b.drop off
  | fuel + 1, off =>
    if off + 4 ≤ b.length then
      if getByte b off ≠ 0xff then b.drop off
      else if getByte b (off + 1) = 0xda then b.drop off
      else if getByte b (off + 1) = 0xed then
        (if isPhotoshopAt b off then [] else jsSlice b off (off + 2 + readLen b off)) ++
          removeAux b fuel (off + 2 + readLen b off)
      else
        jsSlice b off (off + 2 + readLen b off) ++
          removeAux b fuel (off + 2 + readLen b off)
    else b.drop off

/-- `removePhotoshopApp13Segments`: keep SOI and every segment that is
not a Photoshop-branded APP13. -/
def removePhotoshopApp13Segments (b : List Nat) : List Nat :=
  if isJpeg b = false then b else b.take 2 ++ removeAux b b.length 2

/-- The segment phase of the orchestrator (`applyMetadata` lines
560–577): XMP insert-or-replace, Photoshop APP13 removal, IPTC insert. -/
def segmentPipeline (b : List Nat) (title caption description : String)
    (kwList : List String) : List Nat :=
  let xmpSeg := buildXmpSegment (buildXmpXml title description kwList)
  let b1 := insertXmpIntoJpeg b xmpSeg
  let b2 := removePhotoshopApp13Segments b1
  insertIptcIntoJpeg b2 (buildIptcSegment title caption kwList)

/-! ## Specification-level marker walk (§4.2 Marker Scanner contract)

These definitions follow the spec's words; they are the yardstick the
source scanners are compared against, and they give the formal meaning of
"the first Start-Of-Scan marker" and of segment counting. -/

/-- The offset of SOS reached by the contract walk: from `off`, stop on a
broken `0xFF` prefix, advance 2 over standalone SOI/EOI, stop at SOS,
otherwise hop the declared segment length. -/
def markerScanSOS (b : List Nat) : Nat → Nat → Option Nat
  | 0, _ => none
  | fuel + 1, off =>
    if off + 4 ≤ b.length then
      if getByte b off ≠ 0xff then none
      else if getByte b (off + 1) = 0xda then some off
      else if getByte b (off + 1) = 0xd8 ∨ getByte b (off + 1) = 0xd9 then
        markerScanSOS b fuel (off + 2)
      else markerScanSOS b fuel (off + 2 + readLen b off)
    else none

/-- The SOS offset of the whole buffer's marker stream. -/
def findSOS (b : List Nat) : Option Nat := markerScanSOS b b.length 2

/-- The offsets of the length-bearing segments of the marker stream
together with the SOS offset; `none` when the walk breaks before SOS or
meets a standalone SOI/EOI marker mid-stream. -/
def segTraceAux (b : List Nat) : Nat → Nat → Option (List Nat × Nat)
  | 0, _ => none
  | fuel + 1, off =>
    if off + 4 ≤ b.length then
      if getByte b off ≠ 0xff then none
      else if getByte b (off + 1) = 0xda then some ([], off)
      else if getByte b (off + 1) = 0xd8 ∨ getByte b (off + 1) = 0xd9 then none
      else
        match segTraceAux b fuel (off + 2 + readLen b off) with
        | some (offs, p) => some (off :: offs, p)
        | none => none
    else none

/-- The segment trace of the whole buffer's marker stream. -/
def segTrace (b : List Nat) : Option (List Nat × Nat) := segTraceAux b b.length 2

/-- The bytes of the segment starting at `off` (marker, length field and
declared payload). -/
def segAt (b : List Nat) (off : Nat) : List Nat :=
  jsSlice b off (off + 2 + readLen b off)

/-- A well-formed framed segment: marker prefix `0xFF`, a type that is
neither SOS nor standalone SOI/EOI, and a length field that matches the
actual byte count. -/
def wfSeg (s : List Nat) : Prop :=
  4 ≤ s.length ∧ getByte s 0 = 0xff ∧ getByte s 1 ≠ 0xda ∧
    getByte s 1 ≠ 0xd8 ∧ getByte s 1 ≠ 0xd9 ∧ readLen s 0 = s.length - 2

/-- Does a framed segment carry `marker` and start its payload with
`sig`? -/
def isSigSeg (marker : Nat) (sig : List Nat) (s : List Nat) : Bool :=
  getByte s 1 == marker && ((s.drop 4).take sig.length == sig)

/-- The number of segments of the marker stream carrying `marker` and a
payload beginning with `sig`. -/
def countSig (marker : Nat) (sig : List Nat) (b : List Nat) : Nat :=
  match segTrace b with
  | some (offs, _) => ((offs.map (segAt b)).filter (isSigSeg marker sig)).length
  | none => 0

/-- The input's bytes from offset `p` onward survive verbatim as a
suffix of `out`. -/
def SuffixFrom (b : List Nat) (p : Nat) (out : List Nat) : Prop :=
  ∃ pre, out = pre ++ b.drop p

/-! ## IIM record parser (specification-level, for the framing claims) -/

/-- Parse a byte sequence as IIM records
`0x1C, record, dataset, lenHi, lenLo, data…`; each record's data length
is taken from its big-endian length field. -/
def parseIIMAux : Nat → List Nat → Option (List (Nat × Nat × List Nat))
  | _, [] => some []
  | fuel + 1, 0x1c :: record :: dataset :: hi :: lo :: rest =>
    let len := hi * 256 + lo
    if len ≤ rest.length then
      match parseIIMAux fuel (rest.drop len) with
      | some rs => some ((record, dataset, rest.take len) :: rs)
      | none => none
    else none
  | _ + 1, _ => none
  | 0, _ => none

/-- Parse a whole byte sequence as IIM records (each consumes at least
five bytes, so `bytes.length` fuel cannot run out). -/
def parseIIMRecords (bytes : List Nat) : Option (List (Nat × Nat × List Nat)) :=
  parseIIMAux bytes.length bytes

/-- `bytes` parses as the record list `rs` under any sufficient fuel. -/
def ParsesTo (bytes : List Nat) (rs : List (Nat × Nat × List Nat)) : Prop :=
  ∀ fuel, bytes.length ≤ fuel → parseIIMAux fuel bytes = some rs

/-! ## Orchestrator: EXIF phase, retry policy and per-image scoping -/

/-- The EXIF tag fields the orchestrator touches (`piexif` keeps them in
the `0th` IFD dictionary). -/
structure ExifTags where
  imageDescription : String
  xpTitle : Option (List Nat)
  xpComment : Option (List Nat)
  xpKeywords : Option (List Nat)
  deriving DecidableEq, Repr

/-- One UTF-16 code unit list of a scalar value (JS `charCodeAt` view). -/
def utf16Units (c : Char) : List Nat :=
  let n := c.toNat
  if n < 0x10000 then [n]
  else [0xd800 + (n - 0x10000) / 1024, 0xdc00 + (n - 0x10000) % 1024]

/-- `encodeXP`: UTF-16LE bytes of the string plus a null terminator. -/
def encodeXP (s : String) : List Nat :=
  (s.data.flatMap utf16Units).flatMap (fun u => [u % 256, u / 256 % 256]) ++ [0, 0]

/-- Lines 528–548 of `applyMetadata`: set the ASCII `ImageDescription`
from the description (falling back to the caption when the description is
the empty string), and the XP tags for each non-empty source field. -/
def setMetaTags (exif0 : ExifTags) (title caption description keywords : String) :
    ExifTags :=
  let t0 := { exif0 with
    imageDescription :=
      sanitizeAsciiText (if description = "" then caption else description) }
  let t1 := if title ≠ "" then { t0 with xpTitle := some (encodeXP title) } else t0
  let t2 := if caption ≠ "" then { t1 with xpComment := some (encodeXP caption) } else t1
  if keywords ≠ "" then { t2 with xpKeywords := some (encodeXP keywords) } else t2

/-- The external EXIF codec collaborator (`piexif`): `dump` encodes a tag
dictionary, `insertExif` splices encoded EXIF bytes into a JPEG; either
may fail. -/
structure ExifCodec where
  dump : ExifTags → Except String (List Nat)
  insertExif : List Nat → List Nat → Except String (List Nat)

/-- Lines 549–558 of `applyMetadata`: `piexif.dump` runs outside the
`try`; only a failing `insertExif` is caught, clearing
`ImageDescription` and retrying dump-and-insert once.  Any error of the
retry (or of the initial `dump`) propagates. -/
def exifPhase (codec : ExifCodec) (tags : ExifTags) (img : List Nat) :
    Except String (List Nat) :=
  match codec.dump tags with
  | .error e => .error e
  | .ok exifBytes =>
    match codec.insertExif exifBytes img with
    | .ok r => .ok r
    | .error _ =>
      let tags2 := { tags with imageDescription := "" }
      match codec.dump tags2 with
      | .error e => .error e
      | .ok exifBytes2 => codec.insertExif exifBytes2 img

/-- JS `keywords.split(/[,;]/).map(s => s.trim()).filter(Boolean)`. -/
def splitKeywords (s : String) : List String :=
  ((s.split (fun c => c = ',' ∨ c = ';')).map String.trim).filter (fun k => k ≠ "")

/-- Per-image result of `applyMetadata`'s loop body. -/
inductive ImgStatus where
  | updated (bytes : List Nat)
  | error (msg : String)
  deriving DecidableEq, Repr

/-- Process one image: EXIF phase (with the retry policy), then the
segment pipeline; an EXIF failure after the retry makes this image's
status an error. -/
def processImage (codec : ExifCodec) (exif0 : ExifTags)
    (title caption description keywords : String) (img : List Nat) : ImgStatus :=
  match exifPhase codec (setMetaTags exif0 title caption description keywords) img with
  | .error e => .error e
  | .ok bytes1 =>
    .updated (segmentPipeline bytes1 title caption description (splitKeywords keywords))

/-- One batch item: initial tags, the four metadata fields, the bytes. -/
structure BatchItem where
  exif0 : ExifTags
  title : String
  caption : String
  description : String
  keywords : String
  img : List Nat

/-- The batch loop of `applyMetadata`: every image is processed
independently and contributes exactly one status. -/
def processBatch (codec : ExifCodec) (items : List BatchItem) : List ImgStatus :=
  items.map (fun it =>
    processImage codec it.exif0 it.title it.caption it.description it.keywords it.img)

/-- The un-retried encode-and-insert step (the spec's "EXIF encode/insert
step" as a single operation). -/
def dumpInsertOnce (codec : ExifCodec) (tags : ExifTags) (img : List Nat) :
    Except String (List Nat) :=
  match codec.dump tags with
  | .ok eb => codec.insertExif eb img
  | .error e => .error e

/-! ## Concrete inputs used by witnesses and counterexamples -/

/-- A codec whose encoder fails exactly while `ImageDescription` is
non-empty (its insert stage always succeeds). -/
def ceCodec : ExifCodec where
  dump := fun t => if t.imageDescription = "" then .ok [] else .error "dump failure"
  insertExif := fun _ _ => .ok [42]

/-- Tags with a non-empty `ImageDescription`. -/
def ceTags : ExifTags := ⟨"x", none, none, none⟩

/-- A codec whose encoder always succeeds and whose insert stage always
fails. -/
def wCodec : ExifCodec where
  dump := fun _ => .ok []
  insertExif := fun _ _ => .error "insert failure"

/-- A 70000-character ASCII string: a caption whose UTF-8 byte count
exceeds a 16-bit length field. -/
def bigC : String := String.mk (List.replicate 70000 'a')

/-- Spec §4.3, `insertAfterLastApp`'s target position: the end offset of
the most recent APPn (`0xE0`–`0xEF`) segment of the marker stream,
defaulting to 2 (right after SOI). -/
def lastAppEnd (b : List Nat) : Nat :=
  match segTrace b with
  | some (offs, _) =>
    (offs.filter (fun o => 0xe0 ≤ getByte b (o + 1) && getByte b (o + 1) ≤ 0xef)).foldl
      (fun _ o => o + 2 + readLen b o) 2
  | none => 2

/-- A buffer with SOI, a standalone EOI marker, a Photoshop APP13
segment and SOS: the removal scan misreads the bytes after the EOI as a
length field and never sees the APP13. -/
def exC4 : List Nat :=
  [0xff, 0xd8, 0xff, 0xd9, 0xff, 0xed, 0x00, 0x10] ++ psHeader ++
    [0xff, 0xda, 0x00, 0x00]

/-- SOI, a standalone EOI marker, then SOS (witnesses the
standalone-marker skip and the SOS stop of the scanners). -/
def exSkip : List Nat := [0xff, 0xd8, 0xff, 0xd9, 0xff, 0xda, 0x00, 0x00]

/-- SOI immediately followed by SOS: a JPEG with no segments at all. -/
def exSOSOnly : List Nat := [0xff, 0xd8, 0xff, 0xda, 0x00, 0x00]

/-- SOI, one APP0 segment (declared length 4), then SOS: the APP0 ends
exactly at the byte before SOS. -/
def exApp0 : List Nat :=
  [0xff, 0xd8, 0xff, 0xe0, 0x00, 0x04, 0x00, 0x00, 0xff, 0xda, 0x00, 0x00]

/-- SOI, a standalone EOI whose following bytes `0x00 0x08` are misread
as a length by the removal scan, an `0xFF 0xDA` pair inside the misread
span, a Photoshop APP13 segment, and two trailing bytes.  The removal
scan desynchronises at the EOI, still lands on the APP13 and deletes it,
altering bytes after the first `0xFF 0xDA` pair. -/
def exC1 : List Nat :=
  [0xff, 0xd8, 0xff, 0xd9, 0x00, 0x08, 0xff, 0xda, 0x00, 0x00, 0x00, 0x00] ++
    [0xff, 0xed, 0x00, 0x12] ++ psHeader ++ [0x00, 0x00] ++ [0xaa, 0xbb]

/-- A minimal APP1 segment carrying just the XMP preamble (declared
length `0x1f = 29 + 2`). -/
def xmpSegSmall : List Nat := [0xff, 0xe1, 0x00, 0x1f] ++ xmpSig

/-- SOI, two XMP APP1 segments, then SOS: an input that already carries
a duplicated XMP segment. -/
def ex2Xmp : List Nat :=
  [0xff, 0xd8] ++ xmpSegSmall ++ xmpSegSmall ++ [0xff, 0xda, 0x00, 0x00]

/-- The start offsets of consecutively laid-out segments from `base`. -/
def offsetsFrom (base : Nat) : List (List Nat) → List Nat
  | [] => []
  | s :: rest => base :: offsetsFrom (base + s.length) rest

/-- A buffer in canonical marker-stream form: SOI, a run of well-formed
segments laid out back to back, then a tail beginning with SOS. -/
def Canonical (b : List Nat) (segs : List (List Nat)) (tail : List Nat) : Prop :=
  b = [0xff, 0xd8] ++ segs.flatten ++ tail ∧ (∀ s ∈ segs, wfSeg s) ∧
    getByte tail 0 = 0xff ∧ getByte tail 1 = 0xda ∧ 4 ≤ tail.length

/-! # Theorems

## Text sanitizer lemmas -/

theorem mapChar_ascii_id (pairs : List (Char × List Char)) (c : Char)
    (hk : ∀ p ∈ pairs, 0x7f < p.1.toNat) (hc : c.toNat ≤ 0x7f) :
    mapChar pairs c = [c] := by
  unfold mapChar
  have hnone : pairs.find? (fun p => p.1 == c) = none := by
    apply List.find?_eq_none.mpr
    intro p hp hbeq
    have hpc : p.1 = c := by simpa using hbeq
    have := hk p hp
    rw [hpc] at this
    omega
  rw [hnone]

theorem translitChars_ascii_id :
    ∀ l : List Char, (∀ c ∈ l, c.toNat ≤ 0x7f) → translitChars l = l := by
  intro l
  induction l using translitChars.induct with
  | case1 => intro _; rfl
  | case2 rest ih =>
    intro h
    have := h 'Ž' (by simp)
    simp at this
  | case3 rest ih =>
    intro h
    have := h 'ž' (by simp)
    simp at this
  | case4 c rest h1 h2 ih =>
    intro h
    rw [translitChars.eq_def]
    split
    · rename_i heq; exact absurd heq (by simp)
    · rename_i heq
      exfalso
      have := h 'Ž' (by rw [List.cons.injEq] at heq; simp [heq.2])
      simp at this
    · rename_i heq
      exfalso
      have := h 'ž' (by rw [List.cons.injEq] at heq; simp [heq.2])
      simp at this
    · rename_i c2 rest2 heq
      rw [List.cons.injEq] at heq
      obtain ⟨hc2, hrest2⟩ := heq
      subst hc2; subst hrest2
      rw [show translitSingle c = [c] from
        mapChar_ascii_id translitPairs c (by decide) (h c (by simp))]
      rw [ih (fun x hx => h x (List.mem_cons_of_mem _ hx))]
      rfl

theorem mapChar_flatMap_ascii_id (pairs : List (Char × List Char))
    (hk : ∀ p ∈ pairs, 0x7f < p.1.toNat) :
    ∀ l : List Char, (∀ c ∈ l, c.toNat ≤ 0x7f) → l.flatMap (mapChar pairs) = l := by
  intro l h
  induction l with
  | nil => rfl
  | cons c rest ih =>
    rw [List.flatMap_cons, mapChar_ascii_id pairs c hk (h c (by simp)),
      ih (fun x hx => h x (List.mem_cons_of_mem _ hx))]
    rfl

theorem sanitize_data_ascii (s : String) :
    ∀ c ∈ (sanitizeAsciiText s).data, c.toNat ≤ 0x7f := by
  intro c hc
  simp only [sanitizeAsciiText] at hc
  rw [List.mem_filter] at hc
  simpa using hc.2

theorem sanitizeAsciiText_ascii_id (s : String) (h : ∀ c ∈ s.data, c.toNat ≤ 0x7f) :
    sanitizeAsciiText s = s := by
  simp only [sanitizeAsciiText, transliterateSerbian]
  rw [translitChars_ascii_id s.data h]
  rw [show ∀ l : List Char, l.flatMap punctChar = l.flatMap (mapChar punctPairs) from
      fun _ => rfl,
    mapChar_flatMap_ascii_id punctPairs (by decide) s.data h]
  rw [show ∀ l : List Char, l.flatMap nfkdChar = l.flatMap (mapChar nfkdPairs) from
      fun _ => rfl,
    mapChar_flatMap_ascii_id nfkdPairs (by decide) s.data h]
  rw [List.filter_eq_self.mpr (fun c hc => by simpa using h c hc)]

/-! ## Claims C9, C10, C7 -/

/-- **C9.** `sanitizeAsciiText "Pregač sa džepom" = "Pregac sa dzepom"`,
`transliterateSerbian "Đorđe" = "DJordje"`, and every code point of
`sanitizeAsciiText`'s output is at most `0x7F` (anything above `0x7F`
remaining after decomposition is dropped by the final filter). -/
theorem claim_c9_sanitizer_examples :
    sanitizeAsciiText "Pregač sa džepom" = "Pregac sa dzepom" ∧
    transliterateSerbian "Đorđe" = "DJordje" ∧
    ∀ s : String, ∀ c ∈ (sanitizeAsciiText s).data, c.toNat ≤ 0x7f :=
  ⟨by decide, by decide, sanitize_data_ascii⟩

/-- Witness for C9 at a concrete character of a concrete output. -/
theorem claim_c9_sanitizer_examples_witness :
    'P' ∈ (sanitizeAsciiText "Pregač").data ∧ 'P'.toNat ≤ 0x7f :=
  ⟨by decide, claim_c9_sanitizer_examples.2.2 "Pregač" 'P' (by decide)⟩

/-- **C10.** `sanitizeAsciiText` is idempotent: its output is pure ASCII,
and every stage (transliteration, punctuation map, NFKD, filter) is the
identity on ASCII strings. -/
theorem claim_c10_sanitize_idempotent :
    ∀ s : String, sanitizeAsciiText (sanitizeAsciiText s) = sanitizeAsciiText s :=
  fun s => sanitizeAsciiText_ascii_id _ (sanitize_data_ascii s)

/-- **C7.** The orchestrator sets the EXIF `ImageDescription` tag to the
ASCII-sanitized description, falling back to the caption when the
description is the empty string. -/
theorem claim_c7_image_description :
    ∀ (exif0 : ExifTags) (title caption description keywords : String),
      (setMetaTags exif0 title caption description keywords).imageDescription =
        sanitizeAsciiText (if description = "" then caption else description) := by
  intro exif0 title caption description keywords
  simp only [setMetaTags]
  split <;> split <;> split <;> rfl

/-! ## Claim C6 (EXIF retry policy) -/

/-- **C6, counterexample.** The claim states that any failure of the
EXIF encode/insert step triggers the clear-and-retry path.  With a codec
whose *encode* stage (`piexif.dump`) fails while `ImageDescription` is
non-empty, the step fails but the orchestrator performs no retry: `dump`
runs outside the `try`, so its error propagates directly. -/
theorem claim_c6_counterexample :
    (∃ e, dumpInsertOnce ceCodec ceTags [] = Except.error e) ∧
    exifPhase ceCodec ceTags [] ≠
      dumpInsertOnce ceCodec { ceTags with imageDescription := "" } [] := by
  constructor
  · exact ⟨"dump failure", rfl⟩
  · intro hcontra
    rw [show exifPhase ceCodec ceTags [] = Except.error "dump failure" from rfl,
      show dumpInsertOnce ceCodec { ceTags with imageDescription := "" } [] =
        Except.ok [42] from rfl] at hcontra
    exact Except.noConfusion hcontra

/-- **C6 (amended).** If the *insert* stage of the encode/insert step
fails, `ImageDescription` is cleared and encode/insert is retried exactly
once (the phase's result is exactly the result of the single retried
step); a phase failure makes only this image's status an error, and every
batch entry is the independent result of processing its own image. -/
theorem claim_c6_exif_retry_policy :
    (∀ (codec : ExifCodec) (tags : ExifTags) (img eb : List Nat) (e : String),
        codec.dump tags = Except.ok eb → codec.insertExif eb img = Except.error e →
        exifPhase codec tags img =
          dumpInsertOnce codec { tags with imageDescription := "" } img) ∧
    (∀ (codec : ExifCodec) (exif0 : ExifTags) (t c d k : String) (img : List Nat)
        (e : String),
        exifPhase codec (setMetaTags exif0 t c d k) img = Except.error e →
        processImage codec exif0 t c d k img = ImgStatus.error e) ∧
    (∀ (codec : ExifCodec) (items : List BatchItem) (i : Nat),
        (processBatch codec items)[i]? = (items[i]?).map (fun it =>
          processImage codec it.exif0 it.title it.caption it.description
            it.keywords it.img)) := by
  refine ⟨?_, ?_, ?_⟩
  · intro codec tags img eb e hdump hins
    simp [exifPhase, dumpInsertOnce, hdump, hins]
    cases codec.dump { tags with imageDescription := "" } <;> rfl
  · intro codec exif0 t c d k img e hfail
    simp [processImage, hfail]
  · intro codec items i
    simp [processBatch]

/-- Witness for C6 with a codec whose insert stage always fails: the
retry happens and the image's status is an error. -/
theorem claim_c6_exif_retry_policy_witness :
    exifPhase wCodec ceTags [] =
      dumpInsertOnce wCodec { ceTags with imageDescription := "" } [] ∧
    processImage wCodec ceTags "" "" "" "" [] = ImgStatus.error "insert failure" :=
  ⟨claim_c6_exif_retry_policy.1 wCodec ceTags [] [] "insert failure" rfl rfl,
   claim_c6_exif_retry_policy.2.1 wCodec ceTags "" "" "" "" [] "insert failure" rfl⟩

/-! ## IIM parsing lemmas (claims C5 and C8) -/

theorem utf8_replicate_a :
    ∀ n : Nat, (List.replicate n 'a').flatMap utf8Char = List.replicate n 97 := by
  intro n
  induction n with
  | zero => rfl
  | succ m ih =>
    rw [List.replicate_succ, List.flatMap_cons, ih, List.replicate_succ]
    rfl

theorem getByte_cons4_two (a0 a1 a2 a3 : Nat) (l : List Nat) :
    getByte (a0 :: a1 :: a2 :: a3 :: l) 2 = a2 := rfl

theorem getByte_cons4_three (a0 a1 a2 a3 : Nat) (l : List Nat) :
    getByte (a0 :: a1 :: a2 :: a3 :: l) 3 = a3 := rfl

theorem getByte_cons5_three (a0 a1 a2 a3 a4 : Nat) (l : List Nat) :
    getByte (a0 :: a1 :: a2 :: a3 :: a4 :: l) 3 = a3 := rfl

theorem getByte_cons5_four (a0 a1 a2 a3 a4 : Nat) (l : List Nat) :
    getByte (a0 :: a1 :: a2 :: a3 :: a4 :: l) 4 = a4 := rfl

theorem readLen_cons4 (a0 a1 a2 a3 : Nat) (l : List Nat) :
    readLen (a0 :: a1 :: a2 :: a3 :: l) 0 = a2 * 256 + a3 := rfl

theorem parseIIM_nil : ParsesTo [] [] := by
  intro fuel _
  cases fuel <;> rfl

theorem parsesTo_records (bytes : List Nat) (rs : List (Nat × Nat × List Nat))
    (h : ParsesTo bytes rs) : parseIIMRecords bytes = some rs :=
  h bytes.length le_rfl

theorem parseIIM_cons (r d : Nat) (data rest : List Nat) (hlen : data.length < 65536)
    (rs : List (Nat × Nat × List Nat)) (hrest : ParsesTo rest rs) :
    ParsesTo (serializeIptcRecord r d data ++ rest) ((r, d, data) :: rs) := by
  intro fuel hf
  have hflen : (serializeIptcRecord r d data ++ rest).length =
      data.length + rest.length + 5 := by
    simp [serializeIptcRecord]
  rw [hflen] at hf
  cases fuel with
  | zero => omega
  | succ g =>
    have hhl : data.length / 256 % 256 * 256 + data.length % 256 = data.length := by
      omega
    simp only [serializeIptcRecord, List.cons_append, List.nil_append]
    simp only [parseIIMAux, hhl]
    rw [if_pos (by simp), List.take_left, List.drop_left,
      hrest g (by omega)]

theorem parseIIM_keywords :
    ∀ kws : List String, (∀ k ∈ kws, (utf8Str k).length < 65536) →
    ParsesTo ((kws.filter (fun k => k ≠ "")).flatMap
        (fun k => serializeIptcRecord 2 25 (utf8Str k)))
      ((kws.filter (fun k => k ≠ "")).map (fun k => (2, 25, utf8Str k))) := by
  intro kws
  induction kws with
  | nil => intro _; exact parseIIM_nil
  | cons k rest ih =>
    intro hk
    have ihr := ih (fun x hx => hk x (List.mem_cons_of_mem _ hx))
    by_cases hke : k = ""
    · simpa [hke] using ihr
    · rw [List.filter_cons_of_pos (by simp [hke]), List.flatMap_cons, List.map_cons]
      exact parseIIM_cons 2 25 (utf8Str k) _ (hk k (by simp)) _ ihr

theorem parseIIM_payload (t c : String) (kws : List String)
    (ht : (utf8Str t).length < 65536) (hc : (utf8Str c).length < 65536)
    (hk : ∀ k ∈ kws, (utf8Str k).length < 65536) :
    ParsesTo (iptcPayload t c kws)
      ((1, 90, utf8Str "\x1B%G") :: (2, 0, [0x00, 0x04]) ::
        ((if t ≠ "" then [(2, 5, utf8Str t)] else []) ++
         (if c ≠ "" then [(2, 120, utf8Str c)] else []) ++
         (kws.filter (fun k => k ≠ "")).map (fun k => (2, 25, utf8Str k)))) := by
  have hkws := parseIIM_keywords kws hk
  have hopt2 : ParsesTo
      ((if c ≠ "" then serializeIptcRecord 2 120 (utf8Str c) else []) ++
        (kws.filter (fun k => k ≠ "")).flatMap
          (fun k => serializeIptcRecord 2 25 (utf8Str k)))
      ((if c ≠ "" then [(2, 120, utf8Str c)] else []) ++
        (kws.filter (fun k => k ≠ "")).map (fun k => (2, 25, utf8Str k))) := by
    by_cases hc' : c = ""
    · simpa [hc'] using hkws
    · simp only [if_pos (by simp [hc'] : c ≠ "")]
      exact parseIIM_cons 2 120 (utf8Str c) _ hc _ hkws
  have hopt1 : ParsesTo
      ((if t ≠ "" then serializeIptcRecord 2 5 (utf8Str t) else []) ++
        ((if c ≠ "" then serializeIptcRecord 2 120 (utf8Str c) else []) ++
          (kws.filter (fun k => k ≠ "")).flatMap
            (fun k => serializeIptcRecord 2 25 (utf8Str k))))
      ((if t ≠ "" then [(2, 5, utf8Str t)] else []) ++
        ((if c ≠ "" then [(2, 120, utf8Str c)] else []) ++
          (kws.filter (fun k => k ≠ "")).map (fun k => (2, 25, utf8Str k)))) := by
    by_cases ht' : t = ""
    · simpa [ht'] using hopt2
    · simp only [if_pos (by simp [ht'] : t ≠ "")]
      exact parseIIM_cons 2 5 (utf8Str t) _ ht _ hopt2
  have hres := parseIIM_cons 1 90 (utf8Str "\x1B%G") _ (by decide) _
    (parseIIM_cons 2 0 [0x00, 0x04] _ (by decide) _ hopt1)
  have harr : iptcPayload t c kws =
      serializeIptcRecord 1 90 (utf8Str "\x1B%G") ++
        (serializeIptcRecord 2 0 [0x00, 0x04] ++
          ((if t ≠ "" then serializeIptcRecord 2 5 (utf8Str t) else []) ++
            ((if c ≠ "" then serializeIptcRecord 2 120 (utf8Str c) else []) ++
              (kws.filter (fun k => k ≠ "")).flatMap
                (fun k => serializeIptcRecord 2 25 (utf8Str k))))) := by
    simp only [iptcPayload, List.append_assoc]
  rw [ParsesTo, harr]
  intro fuel hf
  rw [hres fuel hf]
  simp [List.append_assoc]

/-! ## Claim C8 (IPTC keyword records) -/

/-- **C8.** `buildIptcSegment` with keywords
`["kuhinja", "pregač"]` emits exactly two `2:025` records, in order, each
framed as `0x1C, 0x02, 0x19, lenHi, lenLo, data`, whose data bytes are
the UTF-8 encoding of the original keyword (hence decode back to it);
and in general the IIM payload parses to one `2:025` record per
non-empty keyword, preserving order. -/
theorem claim_c8_iptc_keywords :
    (parseIIMRecords (iptcPayload "" "" ["kuhinja", "pregač"]) =
      some [(1, 90, utf8Str "\x1B%G"), (2, 0, [0x00, 0x04]),
            (2, 25, utf8Str "kuhinja"), (2, 25, utf8Str "pregač")]) ∧
    serializeIptcRecord 2 25 (utf8Str "pregač") =
      [0x1c, 0x02, 0x19, 0x00, 0x07, 112, 114, 101, 103, 97, 196, 141] ∧
    (∀ (t c : String) (kws : List String),
      (utf8Str t).length < 65536 → (utf8Str c).length < 65536 →
      (∀ k ∈ kws, (utf8Str k).length < 65536) →
      parseIIMRecords (iptcPayload t c kws) =
        some ((1, 90, utf8Str "\x1B%G") :: (2, 0, [0x00, 0x04]) ::
          ((if t ≠ "" then [(2, 5, utf8Str t)] else []) ++
           (if c ≠ "" then [(2, 120, utf8Str c)] else []) ++
           (kws.filter (fun k => k ≠ "")).map (fun k => (2, 25, utf8Str k))))) :=
  ⟨by decide, by decide,
   fun t c kws ht hc hk => parsesTo_records _ _ (parseIIM_payload t c kws ht hc hk)⟩

/-- Witness for C8's general part at concrete metadata. -/
theorem claim_c8_iptc_keywords_witness :
    parseIIMRecords (iptcPayload "t" "" ["x"]) =
      some ((1, 90, utf8Str "\x1B%G") :: (2, 0, [0x00, 0x04]) ::
        ((if ("t" : String) ≠ "" then [(2, 5, utf8Str "t")] else []) ++
         (if ("" : String) ≠ "" then [(2, 120, utf8Str "")] else []) ++
         (["x"].filter (fun k => k ≠ "")).map (fun k => (2, 25, utf8Str k)))) :=
  claim_c8_iptc_keywords.2.2 "t" "" ["x"] (by decide) (by decide)
    (by intro k hk; simp at hk; subst hk; decide)

/-! ## Claim C5 (segment and record framing lengths) -/

/-- **C5, counterexample.** The length field of an IIM record is written
as `(len >> 8) & 0xff, len & 0xff`; for a caption whose UTF-8 encoding is
70000 bytes long the declared length is `70000 % 65536 = 4464`, not the
actual data length, so the claim's universal framing statement fails. -/
theorem claim_c5_counterexample :
    getByte (serializeIptcRecord 2 120 (utf8Str bigC)) 3 * 256 +
      getByte (serializeIptcRecord 2 120 (utf8Str bigC)) 4 ≠
      (utf8Str bigC).length := by
  have hlen : (utf8Str bigC).length = 70000 := by
    simp only [utf8Str, bigC]
    rw [utf8_replicate_a, List.length_replicate]
  have hform : serializeIptcRecord 2 120 (utf8Str bigC) =
      0x1c :: 2 :: 120 :: ((utf8Str bigC).length / 256 % 256) ::
        ((utf8Str bigC).length % 256) :: utf8Str bigC := by
    simp only [serializeIptcRecord, List.cons_append, List.nil_append]
  rw [hform, getByte_cons5_three, getByte_cons5_four, hlen]
  omega

/-- **C5 (amended).** Provided each constructed payload fits its length
field (XMP packet plus preamble at most 65533 bytes, IIM payload at most
65506 bytes, record data under 65536 bytes), every constructed segment
declares a big-endian length equal to its payload length plus 2 (the
segment's byte count minus the two marker bytes), and every IIM record's
length field equals its actual data length. -/
theorem claim_c5_framing_lengths :
    (∀ xml : String, 31 + (utf8Str xml).length ≤ 65535 →
        readLen (buildXmpSegment xml) 0 = (buildXmpSegment xml).length - 2) ∧
    (∀ (t c : String) (kws : List String), (iptcPayload t c kws).length ≤ 65506 →
        readLen (buildIptcSegment t c kws) 0 = (buildIptcSegment t c kws).length - 2) ∧
    (∀ (r d : Nat) (data : List Nat), data.length < 65536 →
        getByte (serializeIptcRecord r d data) 3 * 256 +
          getByte (serializeIptcRecord r d data) 4 = data.length) := by
  refine ⟨?_, ?_, ?_⟩
  · intro xml hxml
    have h29 : xmpSig.length = 29 := by decide
    simp only [buildXmpSegment, List.cons_append, List.nil_append]
    rw [readLen_cons4]
    simp only [List.length_cons, List.length_append, h29]
    omega
  · intro t c kws hsz
    have h14 : psHeader.length = 14 := by decide
    have h4b : (utf8Str "8BIM").length = 4 := by decide
    simp only [buildIptcSegment, List.cons_append, List.nil_append]
    rw [readLen_cons4]
    simp only [List.length_cons, List.length_append, List.length_nil, h14, h4b]
    split <;> (try simp only [List.length_cons, List.length_nil]) <;> omega
  · intro r d data hlen
    have hform : serializeIptcRecord r d data =
        0x1c :: r :: d :: (data.length / 256 % 256) :: (data.length % 256) :: data := by
      simp only [serializeIptcRecord, List.cons_append, List.nil_append]
    rw [hform, getByte_cons5_three, getByte_cons5_four]
    omega

/-- Witness for C5 at small concrete inputs. -/
theorem claim_c5_framing_lengths_witness :
    readLen (buildXmpSegment "x") 0 = (buildXmpSegment "x").length - 2 ∧
    readLen (buildIptcSegment "t" "c" ["k"]) 0 =
      (buildIptcSegment "t" "c" ["k"]).length - 2 ∧
    getByte (serializeIptcRecord 2 25 [7, 8]) 3 * 256 +
      getByte (serializeIptcRecord 2 25 [7, 8]) 4 = 2 :=
  ⟨claim_c5_framing_lengths.1 "x" (by decide),
   claim_c5_framing_lengths.2.1 "t" "c" ["k"] (by decide),
   claim_c5_framing_lengths.2.2 2 25 [7, 8] (by decide)⟩

/-! ## Claim C4 (the Marker Scanner contract) -/

/-- **C4, counterexample.** The removal scan has no standalone-marker
branch: at a `0xFF 0xD9` (EOI) pair it reads the following two bytes as a
length field instead of advancing by 2.  On `exC4` this makes it skip
over — and therefore keep — a Photoshop APP13 segment that the contract
scan would visit and remove. -/
theorem claim_c4_counterexample :
    getByte exC4 2 = 0xff ∧ getByte exC4 3 = 0xd9 ∧ 2 + 4 ≤ exC4.length ∧
    removeAux exC4 26 2 ≠ jsSlice exC4 2 4 ++ removeAux exC4 25 4 ∧
    removePhotoshopApp13Segments exC4 = exC4 := by
  refine ⟨by decide, by decide, by decide, by decide, ?_⟩
  show (if isJpeg exC4 = false then exC4 else exC4.take 2 ++ removeAux exC4 exC4.length 2) =
    exC4
  decide

/-- **C4 (amended).** The XMP-search scan and the shared XMP/IPTC
insertion scan obey the Marker Scanner contract: standalone `0xD8`/`0xD9`
markers advance the position by exactly 2, `0xDA` (SOS) terminates the
scan, and a broken `0xFF` prefix is an early stop, never a fault.  The
removal scan obeys the SOS-termination rule (keeping everything from SOS
verbatim) and the early-stop rule (keeping the remaining bytes), but
treats `0xD8`/`0xD9` as length-bearing segments instead of advancing
by 2. -/
theorem claim_c4_marker_scanner_contract :
    (∀ (b : List Nat) (fuel off : Nat), getByte b off = 0xff →
        (getByte b (off + 1) = 0xd8 ∨ getByte b (off + 1) = 0xd9) →
        off + 4 ≤ b.length →
        findXmpAux b (fuel + 1) off = findXmpAux b fuel (off + 2)) ∧
    (∀ (b : List Nat) (fuel off : Nat), getByte b (off + 1) = 0xda →
        findXmpAux b (fuel + 1) off = none) ∧
    (∀ (b : List Nat) (fuel off : Nat), getByte b off ≠ 0xff →
        findXmpAux b (fuel + 1) off = none) ∧
    (∀ (b : List Nat) (fuel off pos : Nat), getByte b off = 0xff →
        (getByte b (off + 1) = 0xd8 ∨ getByte b (off + 1) = 0xd9) →
        off + 4 ≤ b.length →
        insertAppScan b (fuel + 1) off pos = insertAppScan b fuel (off + 2) pos) ∧
    (∀ (b : List Nat) (fuel off pos : Nat), getByte b (off + 1) = 0xda →
        insertAppScan b (fuel + 1) off pos = pos) ∧
    (∀ (b : List Nat) (fuel off pos : Nat), getByte b off ≠ 0xff →
        insertAppScan b (fuel + 1) off pos = pos) ∧
    (∀ (b : List Nat) (fuel off : Nat), getByte b off = 0xff →
        getByte b (off + 1) = 0xda →
        removeAux b (fuel + 1) off = b.drop off) ∧
    (∀ (b : List Nat) (fuel off : Nat), getByte b off ≠ 0xff →
        removeAux b (fuel + 1) off = b.drop off) ∧
    (∀ (b : List Nat) (fuel off : Nat), getByte b off = 0xff →
        (getByte b (off + 1) = 0xd8 ∨ getByte b (off + 1) = 0xd9) →
        off + 4 ≤ b.length →
        removeAux b (fuel + 1) off =
          jsSlice b off (off + 2 + readLen b off) ++
            removeAux b fuel (off + 2 + readLen b off)) := by
  refine ⟨?_, ?_, ?_, ?_, ?_, ?_, ?_, ?_, ?_⟩
  · intro b fuel off hff hd hg
    rcases hd with h | h <;> simp [findXmpAux, hff, h, hg]
  · intro b fuel off hda
    simp only [findXmpAux]
    by_cases hg : off + 4 ≤ b.length
    · by_cases hff : getByte b off ≠ 0xff <;> simp [hg, hff, hda]
    · simp [hg]
  · intro b fuel off hff
    simp [findXmpAux, hff]
  · intro b fuel off pos hff hd hg
    rcases hd with h | h <;> simp [insertAppScan, hff, h, hg]
  · intro b fuel off pos hda
    simp only [insertAppScan]
    by_cases hg : off + 4 ≤ b.length
    · by_cases hff : getByte b off ≠ 0xff <;> simp [hg, hff, hda]
    · simp [hg]
  · intro b fuel off pos hff
    simp [insertAppScan, hff]
  · intro b fuel off hff hda
    simp only [removeAux]
    by_cases hg : off + 4 ≤ b.length <;> simp [hg, hff, hda]
  · intro b fuel off hff
    simp only [removeAux]
    by_cases hg : off + 4 ≤ b.length <;> simp [hg, hff]
  · intro b fuel off hff hd hg
    rcases hd with h | h <;> simp [removeAux, hff, h, hg]

/-! ## Buffer utilities -/

theorem getByte_append_right (X Y : List Nat) (i : Nat) :
    getByte (X ++ Y) (X.length + i) = getByte Y i := by
  simp only [getByte, List.getD]
  rw [List.get?_append_right (by omega)]
  simp

theorem getByte_append_left (X Y : List Nat) (i : Nat) (h : i < X.length) :
    getByte (X ++ Y) i = getByte X i := by
  simp only [getByte, List.getD]
  rw [List.get?_append h]

theorem take_two (b : List Nat) (h : 2 ≤ b.length) :
    b.take 2 = [getByte b 0, getByte b 1] := by
  match b with
  | [] => simp at h
  | [a] => simp at h
  | a :: c :: rest => rfl

theorem drop_slice_split (b : List Nat) (off e : Nat) (h : off ≤ e) :
    b.drop off = jsSlice b off e ++ b.drop e := by
  simp only [jsSlice]
  have h2 : (b.drop off).drop (e - off) = b.drop e := by
    rw [List.drop_drop, Nat.add_sub_cancel' h]
  conv_rhs => rw [← h2]
  exact (List.take_append_drop _ _).symm

/-! ## Parallel-walk lemmas: the source scanners against the contract
walk `markerScanSOS` -/

theorem sos_ge (b : List Nat) : ∀ fuel off p,
    markerScanSOS b fuel off = some p → off ≤ p := by
  intro fuel
  induction fuel with
  | zero => intro off p h; simp [markerScanSOS] at h
  | succ g ih =>
    intro off p h
    simp only [markerScanSOS] at h
    split at h
    · split at h
      · exact absurd h (by simp)
      · split at h
        · have : off = p := by simpa using h
          omega
        · split at h
          · have := ih _ _ h; omega
          · have := ih _ _ h; omega
    · exact absurd h (by simp)

theorem insertScan_le_sos (b : List Nat) : ∀ fuel off pos p,
    markerScanSOS b fuel off = some p → pos ≤ p →
    insertAppScan b fuel off pos ≤ p := by
  intro fuel
  induction fuel with
  | zero => intro off pos p h _; simp [markerScanSOS] at h
  | succ g ih =>
    intro off pos p h hpos
    simp only [markerScanSOS] at h
    simp only [insertAppScan]
    split at h
    case isTrue hg =>
      rw [if_pos hg]
      split at h
      case isTrue hff => exact absurd h (by simp)
      case isFalse hff =>
        rw [if_neg hff]
        split at h
        case isTrue hda =>
          rw [if_pos hda]
          have : off = p := by simpa using h
          exact hpos
        case isFalse hda =>
          rw [if_neg hda]
          split at h
          case isTrue hd =>
            rw [if_pos hd]
            exact ih _ _ _ h hpos
          case isFalse hd =>
            rw [if_neg hd]
            have hnext := sos_ge b g _ _ h
            split
            · exact ih _ _ _ h hnext
            · exact ih _ _ _ h hpos
    case isFalse hg =>
      rw [if_neg hg]
      exact absurd h (by simp)

theorem findXmp_le_sos (b : List Nat) : ∀ fuel off s t p,
    findXmpAux b fuel off = some (s, t) → markerScanSOS b fuel off = some p →
    s + t ≤ p ∧ t = 2 + readLen b s := by
  intro fuel
  induction fuel with
  | zero => intro off s t p hx _; simp [findXmpAux] at hx
  | succ g ih =>
    intro off s t p hx hp
    simp only [markerScanSOS] at hp
    simp only [findXmpAux] at hx
    split at hp
    case isTrue hg =>
      rw [if_pos hg] at hx
      split at hp
      case isTrue hff => exact absurd hx (by simp [hff])
      case isFalse hff =>
        rw [if_neg hff] at hx
        split at hp
        case isTrue hda => exact absurd hx (by simp [hda])
        case isFalse hda =>
          rw [if_neg hda] at hx
          split at hp
          case isTrue hd =>
            rw [if_pos hd] at hx
            exact ih _ _ _ _ hx hp
          case isFalse hd =>
            rw [if_neg hd] at hx
            split at hx
            case isTrue he =>
              have hst : s = off ∧ t = 2 + readLen b off := by
                have := Option.some.inj hx
                exact ⟨(Prod.mk.injEq _ _ _ _ ▸ this).1.symm ▸ rfl, by
                  cases this; rfl⟩
              obtain ⟨hs, ht⟩ := hst
              subst hs
              have := sos_ge b g _ _ hp
              exact ⟨by omega, ht⟩
            case isFalse he =>
              exact ih _ _ _ _ hx hp
    case isFalse hg =>
      rw [if_neg hg] at hx
      exact absurd hx (by simp)

/-! ## Structure of a successful contract walk (`segTraceAux`) -/

theorem take_slice_split (b : List Nat) (s e : Nat) (h : s ≤ e) :
    b.take e = b.take s ++ jsSlice b s e := by
  simp only [jsSlice]
  rw [← List.drop_take]
  conv_lhs => rw [← List.take_append_drop s (b.take e)]
  congr 1
  rw [List.take_take]
  congr 1
  omega

theorem getByte_jsSlice (b : List Nat) (s e i : Nat) (h : i < e - s) :
    getByte (jsSlice b s e) i = getByte b (s + i) := by
  simp only [jsSlice, getByte, List.getD]
  rw [List.get?_take h, List.get?_drop]

/-- The structural content of a successful contract walk: the first
visited position, the shape of the SOS position, the shape of each
length-bearing segment offset (marker prefix, non-special type, length
at least 2, its end again a visited position), and the decomposition of
the buffer from `off` into the segments' bytes followed by the SOS
suffix. -/
theorem segTrace_main (b : List Nat) : ∀ fuel off offs p,
    segTraceAux b fuel off = some (offs, p) →
    off ∈ offs ++ [p] ∧
    (getByte b p = 0xff ∧ getByte b (p + 1) = 0xda ∧ p + 4 ≤ b.length) ∧
    (∀ o ∈ offs,
      getByte b o = 0xff ∧ getByte b (o + 1) ≠ 0xda ∧ getByte b (o + 1) ≠ 0xd8 ∧
      getByte b (o + 1) ≠ 0xd9 ∧ o + 4 ≤ b.length ∧ 2 ≤ readLen b o ∧
      o + 2 + readLen b o ≤ p ∧ (o + 2 + readLen b o) ∈ offs ++ [p]) ∧
    b.drop off = (offs.map (segAt b)).flatten ++ b.drop p := by
  intro fuel
  induction fuel with
  | zero => intro off offs p h; simp [segTraceAux] at h
  | succ g ih =>
    intro off offs p h
    simp only [segTraceAux] at h
    split at h
    case isFalse hg => exact absurd h (by simp)
    case isTrue hg =>
    split at h
    case isTrue hff => exact absurd h (by simp)
    case isFalse hff =>
    have hffe : getByte b off = 0xff := not_not.mp hff
    split at h
    case isTrue hda =>
      have hop : offs = [] ∧ p = off := by
        have h2 := Option.some.inj h
        rw [Prod.mk.injEq] at h2
        exact ⟨h2.1.symm, h2.2.symm⟩
      obtain ⟨ho, hp⟩ := hop
      subst ho; subst hp
      exact ⟨by simp, ⟨hffe, hda, hg⟩, by simp, by simp⟩
    case isFalse hda =>
    split at h
    case isTrue hd => exact absurd h (by simp)
    case isFalse hd =>
    rcases htr : segTraceAux b g (off + 2 + readLen b off) with _ | ⟨offs', p'⟩
    · rw [htr] at h; exact absurd h (by simp)
    · rw [htr] at h
      have h2 := Option.some.inj h
      rw [Prod.mk.injEq] at h2
      obtain ⟨hoffs, hp⟩ := h2
      subst hp
      subst hoffs
      obtain ⟨hhead, hpprops, hmem, hdec⟩ := ih _ _ _ htr
      have hd8 : getByte b (off + 1) ≠ 0xd8 := fun hc => hd (Or.inl hc)
      have hd9 : getByte b (off + 1) ≠ 0xd9 := fun hc => hd (Or.inr hc)
      have hffnext : getByte b (off + 2 + readLen b off) = 0xff := by
        rcases List.mem_append.mp hhead with hin | hin
        · exact (hmem _ hin).1
        · have : off + 2 + readLen b off = p' := by simpa using hin
          rw [this]; exact hpprops.1
      have hlen2 : 2 ≤ readLen b off := by
        have e : readLen b off = getByte b (off + 2) * 256 + getByte b (off + 3) := rfl
        by_contra hlt
        have : readLen b off = 0 ∨ readLen b off = 1 := by omega
        rcases this with h0 | h1
        · rw [h0] at hffnext
          simp only [Nat.add_zero] at hffnext
          omega
        · rw [h1] at hffnext
          have : off + 2 + 1 = off + 3 := by omega
          rw [this] at hffnext
          omega
      have hnextle : off + 2 + readLen b off ≤ p' := by
        rcases List.mem_append.mp hhead with hin | hin
        · have := (hmem _ hin).2.2.2.2.2.2.1
          omega
        · have : off + 2 + readLen b off = p' := by simpa using hin
          omega
      refine ⟨by simp, hpprops, ?_, ?_⟩
      · intro o ho
        rcases List.mem_cons.mp ho with rfl | ho'
        · refine ⟨hffe, hda, hd8, hd9, hg, hlen2, hnextle, ?_⟩
          rcases List.mem_append.mp hhead with hin | hin
          · exact List.mem_append.mpr (Or.inl (List.mem_cons_of_mem _ hin))
          · exact List.mem_append.mpr (Or.inr hin)
        · obtain ⟨m1, m2, m3, m4, m5, m6, m7, m8⟩ := hmem _ ho'
          refine ⟨m1, m2, m3, m4, m5, m6, m7, ?_⟩
          rcases List.mem_append.mp m8 with hin | hin
          · exact List.mem_append.mpr (Or.inl (List.mem_cons_of_mem _ hin))
          · exact List.mem_append.mpr (Or.inr hin)
      · have hsplit : b.drop off =
            jsSlice b off (off + 2 + readLen b off) ++
              b.drop (off + 2 + readLen b off) := by
          exact drop_slice_split b off _ (by omega)
        rw [hsplit, hdec]
        simp [segAt, List.append_assoc]

theorem segTrace_sos (b : List Nat) : ∀ fuel off offs p,
    segTraceAux b fuel off = some (offs, p) → markerScanSOS b fuel off = some p := by
  intro fuel
  induction fuel with
  | zero => intro off offs p h; simp [segTraceAux] at h
  | succ g ih =>
    intro off offs p h
    simp only [segTraceAux] at h
    simp only [markerScanSOS]
    split at h
    case isFalse hg => exact absurd h (by simp)
    case isTrue hg =>
      rw [if_pos hg]
      split at h
      case isTrue hff => exact absurd h (by simp)
      case isFalse hff =>
        rw [if_neg hff]
        split at h
        case isTrue hda =>
          rw [if_pos hda]
          have h2 := Option.some.inj h
          rw [Prod.mk.injEq] at h2
          rw [h2.2]
        case isFalse hda =>
          rw [if_neg hda]
          split at h
          case isTrue hd => exact absurd h (by simp)
          case isFalse hd =>
            rw [if_neg hd]
            rcases htr : segTraceAux b g (off + 2 + readLen b off) with _ | ⟨offs', p'⟩
            · rw [htr] at h; exact absurd h (by simp)
            · rw [htr] at h
              have h2 := Option.some.inj h
              rw [Prod.mk.injEq] at h2
              rw [← h2.2]
              exact ih _ _ _ htr

theorem segAt_length (b : List Nat) (o : Nat) (h : o + 2 + readLen b o ≤ b.length) :
    (segAt b o).length = 2 + readLen b o := by
  simp [segAt, jsSlice]
  omega

theorem getByte_segAt (b : List Nat) (o i : Nat) (h : i < 2 + readLen b o) :
    getByte (segAt b o) i = getByte b (o + i) :=
  getByte_jsSlice b o _ i (by omega)

theorem getD_eq_getByte (l : List Nat) (i : Nat) (h : i < l.length) :
    l.getD i 0 = getByte l i := by
  simp only [getByte, List.getD]
  rw [List.get?_eq_get h]
  rfl

theorem sigMatchesAt_iff (b : List Nat) (off : Nat) (sig : List Nat) :
    sigMatchesAt b off sig = true ↔
      ∀ i < sig.length, getByte b (off + i) = sig.getD i 0 := by
  simp [sigMatchesAt, List.all_eq_true, List.mem_range]

theorem take_drop_eq_iff (l sig : List Nat) (m : Nat) (hpos : 0 < sig.length) :
    (l.drop m).take sig.length = sig ↔
      (m + sig.length ≤ l.length ∧ ∀ i < sig.length, getByte l (m + i) = sig.getD i 0) := by
  constructor
  · intro he
    have hlen : ((l.drop m).take sig.length).length = sig.length := by rw [he]
    simp only [List.length_take, List.length_drop] at hlen
    have hb : m + sig.length ≤ l.length := by
      rcases Nat.le_total sig.length (l.length - m) with hc | hc
      · omega
      · rw [Nat.min_eq_right hc] at hlen
        omega
    refine ⟨hb, ?_⟩
    intro i hi
    have h1 : ((l.drop m).take sig.length).get? i = sig.get? i := by rw [he]
    rw [List.get?_take hi, List.get?_drop] at h1
    simp only [getByte, List.getD]
    rw [h1, List.get?_eq_get (show i < sig.length from hi)]
    rfl
  · rintro ⟨hb, hpt⟩
    apply List.ext
    intro n
    by_cases hn : n < sig.length
    · rw [List.get?_take hn, List.get?_drop]
      have h1 := hpt n hn
      simp only [getByte, List.getD,
        List.get?_eq_get (show m + n < l.length by omega),
        List.get?_eq_get (show n < sig.length from hn), Option.getD_some] at h1
      rw [List.get?_eq_get (show m + n < l.length by omega),
        List.get?_eq_get (show n < sig.length from hn)]
      exact congrArg some h1
    · rw [List.get?_eq_none.mpr, List.get?_eq_none.mpr]
      · omega
      · simp only [List.length_take, List.length_drop]
        omega

theorem sig_contained (b : List Nat) (fuel off : Nat) (offs : List Nat) (p o : Nat)
    (sig : List Nat) (h : segTraceAux b fuel off = some (offs, p)) (ho : o ∈ offs)
    (hsig : ∀ i < sig.length, sig.getD i 0 ≠ 0xff)
    (hm : sigMatchesAt b (o + 4) sig = true) :
    4 + sig.length ≤ 2 + readLen b o := by
  obtain ⟨-, hp, hmem, -⟩ := segTrace_main b fuel off offs p h
  obtain ⟨m1, m2, m3, m4, m5, m6, m7, m8⟩ := hmem o ho
  by_contra hlt
  push_neg at hlt
  have hffnext : getByte b (o + 2 + readLen b o) = 0xff := by
    rcases List.mem_append.mp m8 with hin | hin
    · exact (hmem _ hin).1
    · have he : o + 2 + readLen b o = p := by simpa using hin
      rw [he]; exact hp.1
  have hidx : o + 2 + readLen b o = o + 4 + (readLen b o - 2) := by omega
  have hpt := (sigMatchesAt_iff b (o + 4) sig).mp hm (readLen b o - 2) (by omega)
  rw [hidx] at hffnext
  rw [hpt] at hffnext
  exact hsig (readLen b o - 2) (by omega) hffnext

theorem isSigSeg_iff (b : List Nat) (fuel off : Nat) (offs : List Nat) (p o m : Nat)
    (sig : List Nat) (h : segTraceAux b fuel off = some (offs, p)) (ho : o ∈ offs)
    (hpos : 0 < sig.length) (hsig : ∀ i < sig.length, sig.getD i 0 ≠ 0xff) :
    isSigSeg m sig (segAt b o) = true ↔
      (getByte b (o + 1) = m ∧ sigMatchesAt b (o + 4) sig = true) := by
  obtain ⟨-, hp, hmem, -⟩ := segTrace_main b fuel off offs p h
  obtain ⟨m1, m2, m3, m4, m5, m6, m7, m8⟩ := hmem o ho
  have hbound : o + 2 + readLen b o ≤ b.length := by omega
  have hlen := segAt_length b o hbound
  have htype : getByte (segAt b o) 1 = getByte b (o + 1) := getByte_segAt b o 1 (by omega)
  simp only [isSigSeg, Bool.and_eq_true, beq_iff_eq]
  constructor
  · rintro ⟨ht, hpay⟩
    have hpay' : ((segAt b o).drop 4).take sig.length = sig := by simpa using hpay
    obtain ⟨hcb, hpt⟩ := (take_drop_eq_iff (segAt b o) sig 4 hpos).mp hpay'
    rw [hlen] at hcb
    refine ⟨htype.symm.trans ht, ?_⟩
    rw [sigMatchesAt_iff]
    intro i hi
    have hx := hpt i hi
    rw [getByte_segAt b o (4 + i) (by omega),
      show o + (4 + i) = o + 4 + i by omega] at hx
    exact hx
  · rintro ⟨ht, hm'⟩
    have hcont := sig_contained b fuel off offs p o sig h ho hsig hm'
    refine ⟨by rw [htype]; exact ht, ?_⟩
    have hpay : ((segAt b o).drop 4).take sig.length = sig := by
      rw [take_drop_eq_iff _ _ _ hpos]
      refine ⟨by omega, ?_⟩
      intro i hi
      rw [getByte_segAt b o (4 + i) (by omega),
        show o + (4 + i) = o + 4 + i by omega]
      exact (sigMatchesAt_iff b (o + 4) sig).mp hm' i hi
    simpa using hpay

theorem findXmp_trace (b : List Nat) : ∀ fuel off offs p,
    segTraceAux b fuel off = some (offs, p) →
    (∀ s t, findXmpAux b fuel off = some (s, t) →
      ∃ l1 l2, offs = l1 ++ s :: l2 ∧ t = 2 + readLen b s ∧
        getByte b (s + 1) = 0xe1 ∧ sigMatchesAt b (s + 4) xmpSig = true ∧
        ∀ o ∈ l1, ¬(getByte b (o + 1) = 0xe1 ∧ sigMatchesAt b (o + 4) xmpSig = true)) ∧
    (findXmpAux b fuel off = none →
      ∀ o ∈ offs, ¬(getByte b (o + 1) = 0xe1 ∧ sigMatchesAt b (o + 4) xmpSig = true)) := by
  intro fuel
  induction fuel with
  | zero => intro off offs p h; simp [segTraceAux] at h
  | succ g ih =>
    intro off offs p h
    simp only [segTraceAux] at h
    split at h
    case isFalse hg => exact absurd h (by simp)
    case isTrue hg =>
    split at h
    case isTrue hff => exact absurd h (by simp)
    case isFalse hff =>
    split at h
    case isTrue hda =>
      have hop : offs = [] ∧ p = off := by
        have h2 := Option.some.inj h
        rw [Prod.mk.injEq] at h2
        exact ⟨h2.1.symm, h2.2.symm⟩
      obtain ⟨ho, hp⟩ := hop
      subst ho
      constructor
      · intro s t hf
        simp only [findXmpAux, if_pos hg, if_neg hff, if_pos hda] at hf
        exact Option.noConfusion hf
      · intro _ o hmem
        simp at hmem
    case isFalse hda =>
    split at h
    case isTrue hd => exact absurd h (by simp)
    case isFalse hd =>
    rcases htr : segTraceAux b g (off + 2 + readLen b off) with _ | ⟨offs', p'⟩
    · rw [htr] at h; exact absurd h (by simp)
    · rw [htr] at h
      have h2 := Option.some.inj h
      rw [Prod.mk.injEq] at h2
      obtain ⟨hoffs, hpp⟩ := h2
      subst hpp
      subst hoffs
      obtain ⟨ihs, ihn⟩ := ih _ _ _ htr
      by_cases he : getByte b (off + 1) = 0xe1 ∧ sigMatchesAt b (off + 4) xmpSig = true
      · constructor
        · intro s t hf
          simp only [findXmpAux, if_pos hg, if_neg hff, if_neg hda, if_neg hd,
            if_pos he] at hf
          have h3 := Option.some.inj hf
          rw [Prod.mk.injEq] at h3
          obtain ⟨hs, ht⟩ := h3
          subst hs
          exact ⟨[], offs', by simp, ht.symm, he.1, he.2, by simp⟩
        · intro hf
          simp only [findXmpAux, if_pos hg, if_neg hff, if_neg hda, if_neg hd,
            if_pos he] at hf
          exact Option.noConfusion hf
      · constructor
        · intro s t hf
          simp only [findXmpAux, if_pos hg, if_neg hff, if_neg hda, if_neg hd,
            if_neg he] at hf
          obtain ⟨l1, l2, hsplit, ht, he1, hsg, hnone⟩ := ihs s t hf
          refine ⟨off :: l1, l2, by rw [hsplit]; rfl, ht, he1, hsg, ?_⟩
          intro o ho
          rcases List.mem_cons.mp ho with rfl | ho'
          · exact he
          · exact hnone o ho'
        · intro hf
          simp only [findXmpAux, if_pos hg, if_neg hff, if_neg hda, if_neg hd,
            if_neg he] at hf
          intro o ho
          rcases List.mem_cons.mp ho with rfl | ho'
          · exact he
          · exact ihn hf o ho'

theorem foldl_last_mem (f : Nat → Nat) :
    ∀ (l : List Nat) (init : Nat),
      l.foldl (fun _ o => f o) init ∈ init :: l.map f := by
  intro l
  induction l with
  | nil => intro init; simp
  | cons a l ih =>
    intro init
    simp only [List.foldl_cons, List.map_cons]
    rcases List.mem_cons.mp (ih (f a)) with he | hm
    · rw [he]; simp
    · exact List.mem_cons_of_mem _ (List.mem_cons_of_mem _ hm)

theorem insertScan_trace (b : List Nat) : ∀ fuel off offs p pos,
    segTraceAux b fuel off = some (offs, p) →
    insertAppScan b fuel off pos =
      (offs.filter (fun o => 0xe0 ≤ getByte b (o + 1) && getByte b (o + 1) ≤ 0xef)).foldl
        (fun _ o => o + 2 + readLen b o) pos := by
  intro fuel
  induction fuel with
  | zero => intro off offs p pos h; simp [segTraceAux] at h
  | succ g ih =>
    intro off offs p pos h
    simp only [segTraceAux] at h
    split at h
    case isFalse hg => exact absurd h (by simp)
    case isTrue hg =>
    split at h
    case isTrue hff => exact absurd h (by simp)
    case isFalse hff =>
    split at h
    case isTrue hda =>
      have hop : offs = [] ∧ p = off := by
        have h2 := Option.some.inj h
        rw [Prod.mk.injEq] at h2
        exact ⟨h2.1.symm, h2.2.symm⟩
      rw [hop.1]
      simp only [insertAppScan, if_pos hg, if_neg hff, if_pos hda]
      simp
    case isFalse hda =>
    split at h
    case isTrue hd => exact absurd h (by simp)
    case isFalse hd =>
    rcases htr : segTraceAux b g (off + 2 + readLen b off) with _ | ⟨offs', p'⟩
    · rw [htr] at h; exact absurd h (by simp)
    · rw [htr] at h
      have h2 := Option.some.inj h
      rw [Prod.mk.injEq] at h2
      obtain ⟨hoffs, hpp⟩ := h2
      subst hpp
      subst hoffs
      by_cases happ : 0xe0 ≤ getByte b (off + 1) ∧ getByte b (off + 1) ≤ 0xef
      · rw [List.filter_cons_of_pos (by simp [happ.1, happ.2])]
        simp only [insertAppScan, if_pos hg, if_neg hff, if_neg hda, if_neg hd,
          if_pos happ, List.foldl_cons]
        exact ih _ _ _ _ htr
      · rw [List.filter_cons_of_neg (by simpa using happ)]
        simp only [insertAppScan, if_pos hg, if_neg hff, if_neg hda, if_neg hd,
          if_neg happ]
        exact ih _ _ _ _ htr

theorem segTrace_split (b : List Nat) : ∀ fuel off offs p q,
    segTraceAux b fuel off = some (offs, p) → q ∈ offs ++ [p] →
    ∃ l1 l2, offs = l1 ++ l2 ∧
      b.take q = b.take off ++ (l1.map (segAt b)).flatten ∧
      b.drop q = (l2.map (segAt b)).flatten ++ b.drop p := by
  intro fuel
  induction fuel with
  | zero => intro off offs p q h _; simp [segTraceAux] at h
  | succ g ih =>
    intro off offs p q h hq
    have hmain := segTrace_main b (g + 1) off offs p h
    simp only [segTraceAux] at h
    split at h
    case isFalse hg => exact absurd h (by simp)
    case isTrue hg =>
    split at h
    case isTrue hff => exact absurd h (by simp)
    case isFalse hff =>
    split at h
    case isTrue hda =>
      have hop : offs = [] ∧ p = off := by
        have h2 := Option.some.inj h
        rw [Prod.mk.injEq] at h2
        exact ⟨h2.1.symm, h2.2.symm⟩
      obtain ⟨ho, hp⟩ := hop
      subst ho; subst hp
      have : q = p := by simpa using hq
      subst this
      exact ⟨[], [], by simp, by simp, by simp⟩
    case isFalse hda =>
    split at h
    case isTrue hd => exact absurd h (by simp)
    case isFalse hd =>
    rcases htr : segTraceAux b g (off + 2 + readLen b off) with _ | ⟨offs', p'⟩
    · rw [htr] at h; exact absurd h (by simp)
    · rw [htr] at h
      have h2 := Option.some.inj h
      rw [Prod.mk.injEq] at h2
      obtain ⟨hoffs, hpp⟩ := h2
      subst hpp
      subst hoffs
      by_cases hqo : q = off
      · refine ⟨[], q :: offs', by rw [hqo]; rfl, by rw [hqo]; simp, ?_⟩
        rw [hqo]
        exact hmain.2.2.2
      · have hq' : q ∈ offs' ++ [p'] := by
          rcases List.mem_append.mp hq with hin | hin
          · rcases List.mem_cons.mp hin with rfl | hin'
            · exact absurd rfl hqo
            · exact List.mem_append.mpr (Or.inl hin')
          · exact List.mem_append.mpr (Or.inr hin)
        obtain ⟨l1, l2, hsplit, htake, hdrop⟩ := ih _ _ _ q htr hq'
        refine ⟨off :: l1, l2, by rw [hsplit]; rfl, ?_, hdrop⟩
        rw [htake, take_slice_split b off (off + 2 + readLen b off) (by omega)]
        simp only [List.map_cons, List.flatten_cons, segAt, List.append_assoc]

theorem canonical_trace (tail : List Nat) (h0 : getByte tail 0 = 0xff)
    (h1 : getByte tail 1 = 0xda) (h4 : 4 ≤ tail.length) :
    ∀ (segs : List (List Nat)) (X : List Nat) (fuel : Nat),
      (∀ s ∈ segs, wfSeg s) → segs.flatten.length + tail.length ≤ fuel →
      segTraceAux (X ++ (segs.flatten ++ tail)) fuel X.length =
        some (offsetsFrom X.length segs, X.length + segs.flatten.length) ∧
      (offsetsFrom X.length segs).map (segAt (X ++ (segs.flatten ++ tail))) = segs := by
  intro segs
  induction segs with
  | nil =>
    intro X fuel hwf hfuel
    simp only [List.flatten_nil, List.nil_append, List.length_nil] at hfuel ⊢
    cases fuel with
    | zero => omega
    | succ g =>
      refine ⟨?_, by simp [offsetsFrom]⟩
      simp only [segTraceAux]
      have hb0 : getByte (X ++ tail) X.length = 0xff := by
        have h := getByte_append_right X tail 0
        rw [Nat.add_zero] at h
        rw [h, h0]
      have hb1 : getByte (X ++ tail) (X.length + 1) = 0xda := by
        rw [getByte_append_right X tail 1, h1]
      rw [if_pos (by simp; omega), if_neg (by simp [hb0]), if_pos hb1]
      simp [offsetsFrom]
  | cons s segs' ih =>
    intro X fuel hwf hfuel
    have hws := hwf s (by simp)
    obtain ⟨hs4, hsff, hsda, hsd8, hsd9, hslen⟩ := hws
    simp only [List.flatten_cons] at hfuel ⊢
    simp only [List.length_append] at hfuel
    have hB : X ++ ((s ++ segs'.flatten) ++ tail) = (X ++ s) ++ (segs'.flatten ++ tail) := by
      simp [List.append_assoc]
    have hget : ∀ i, i < s.length →
        getByte (X ++ ((s ++ segs'.flatten) ++ tail)) (X.length + i) = getByte s i := by
      intro i hi
      rw [getByte_append_right X ((s ++ segs'.flatten) ++ tail) i,
        getByte_append_left (s ++ segs'.flatten) tail i (by simp; omega),
        getByte_append_left s segs'.flatten i hi]
    cases fuel with
    | zero => omega
    | succ g =>
      have hguard : X.length + 4 ≤ (X ++ ((s ++ segs'.flatten) ++ tail)).length := by
        simp
        omega
      have hb0 : getByte (X ++ ((s ++ segs'.flatten) ++ tail)) X.length = 0xff := by
        have h := hget 0 (by omega)
        rw [Nat.add_zero] at h
        rw [h, hsff]
      have hb1 : getByte (X ++ ((s ++ segs'.flatten) ++ tail)) (X.length + 1) =
          getByte s 1 := hget 1 (by omega)
      have hrdl : readLen (X ++ ((s ++ segs'.flatten) ++ tail)) X.length = s.length - 2 := by
        simp only [readLen] at hslen ⊢
        rw [hget 2 (by omega), hget 3 (by omega)]
        simpa using hslen
      have hnext : X.length + 2 + readLen (X ++ ((s ++ segs'.flatten) ++ tail)) X.length =
          X.length + s.length := by
        rw [hrdl]
        omega
      have ihr := ih (X ++ s) g (fun x hx => hwf x (List.mem_cons_of_mem _ hx)) (by omega)
      rw [← hB] at ihr
      simp only [List.length_append] at ihr
      constructor
      · simp only [segTraceAux]
        rw [if_pos hguard, if_neg (by rw [hb0]; simp), if_neg (by rw [hb1]; exact hsda),
          if_neg (by rw [hb1]; push_neg; exact ⟨hsd8, hsd9⟩), hnext]
        rw [ihr.1]
        simp [offsetsFrom, Nat.add_assoc]
      · have hsegAt : segAt (X ++ (s ++ segs'.flatten ++ tail)) X.length = s := by
          simp only [segAt, hnext, jsSlice]
          rw [show X.length + s.length - X.length = s.length by omega]
          rw [List.drop_left]
          rw [List.append_assoc, List.take_left]
        simp only [offsetsFrom, List.map_cons]
        rw [hsegAt, ihr.2]


theorem removeAux_trace (b : List Nat) : ∀ fuel off offs p,
    segTraceAux b fuel off = some (offs, p) →
    removeAux b fuel off =
      ((offs.filter (fun o => !(getByte b (o + 1) == 0xed && isPhotoshopAt b o))).map
        (segAt b)).flatten ++ b.drop p := by
  intro fuel
  induction fuel with
  | zero => intro off offs p h; simp [segTraceAux] at h
  | succ g ih =>
    intro off offs p h
    simp only [segTraceAux] at h
    split at h
    case isFalse hg => exact absurd h (by simp)
    case isTrue hg =>
    split at h
    case isTrue hff => exact absurd h (by simp)
    case isFalse hff =>
    split at h
    case isTrue hda =>
      have hop : offs = [] ∧ p = off := by
        have h2 := Option.some.inj h
        rw [Prod.mk.injEq] at h2
        exact ⟨h2.1.symm, h2.2.symm⟩
      obtain ⟨ho, hp⟩ := hop
      subst ho; subst hp
      simp only [removeAux, if_pos hg, if_neg hff, if_pos hda]
      simp
    case isFalse hda =>
    split at h
    case isTrue hd => exact absurd h (by simp)
    case isFalse hd =>
    rcases htr : segTraceAux b g (off + 2 + readLen b off) with _ | ⟨offs', p'⟩
    · rw [htr] at h; exact absurd h (by simp)
    · rw [htr] at h
      have h2 := Option.some.inj h
      rw [Prod.mk.injEq] at h2
      obtain ⟨hoffs, hpp⟩ := h2
      subst hpp
      subst hoffs
      have ihr := ih _ _ _ htr
      by_cases hte : getByte b (off + 1) = 0xed
      · by_cases hps : isPhotoshopAt b off = true
        · rw [List.filter_cons_of_neg (by simp [hte, hps])]
          simp only [removeAux, if_pos hg, if_neg hff, if_neg hda, if_pos hte,
            if_pos hps]
          rw [ihr]
          simp
        · rw [List.filter_cons_of_pos (by simp [hte, hps])]
          simp only [removeAux, if_pos hg, if_neg hff, if_neg hda, if_pos hte,
            if_neg hps]
          rw [ihr]
          simp only [List.map_cons, List.flatten_cons, segAt, List.append_assoc]
      · rw [List.filter_cons_of_pos (by simp [hte])]
        simp only [removeAux, if_pos hg, if_neg hff, if_neg hda, if_neg hte]
        rw [ihr]
        simp only [List.map_cons, List.flatten_cons, segAt, List.append_assoc]

theorem segTrace_wfSeg (b : List Nat) (fuel off : Nat) (offs : List Nat) (p : Nat)
    (h : segTraceAux b fuel off = some (offs, p)) :
    ∀ o ∈ offs, wfSeg (segAt b o) := by
  intro o ho
  obtain ⟨-, hp, hmem, -⟩ := segTrace_main b fuel off offs p h
  obtain ⟨m1, m2, m3, m4, m5, m6, m7, m8⟩ := hmem o ho
  have hbound : o + 2 + readLen b o ≤ b.length := by omega
  have hlen := segAt_length b o hbound
  refine ⟨by omega, ?_, ?_, ?_, ?_, ?_⟩
  · rw [show (0 : Nat) = 0 from rfl, getByte_segAt b o 0 (by omega), Nat.add_zero]
    exact m1
  · rw [getByte_segAt b o 1 (by omega)]
    exact m2
  · rw [getByte_segAt b o 1 (by omega)]
    exact m3
  · rw [getByte_segAt b o 1 (by omega)]
    exact m4
  · show readLen (segAt b o) 0 = (segAt b o).length - 2
    simp only [readLen]
    rw [show (0 : Nat) + 2 = 2 from rfl, show (0 : Nat) + 3 = 3 from rfl,
      getByte_segAt b o 2 (by omega), getByte_segAt b o 3 (by omega), hlen]
    simp [readLen]

theorem getByte_drop (b : List Nat) (n i : Nat) :
    getByte (b.drop n) i = getByte b (n + i) := by
  simp [getByte, List.getD, List.get?_drop]

theorem mem_split_key : ∀ (offs : List Nat) (p q : Nat), q ∈ offs ++ [p] →
    ∃ l1 l2, offs = l1 ++ l2 ∧ (match l2 with | [] => p | o :: _ => o) = q := by
  intro offs
  induction offs with
  | nil =>
    intro p q hq
    simp at hq
    exact ⟨[], [], rfl, hq.symm⟩
  | cons a offs ih =>
    intro p q hq
    by_cases hqa : q = a
    · exact ⟨[], a :: offs, rfl, hqa.symm⟩
    · have : q ∈ offs ++ [p] := by
        rcases List.mem_append.mp hq with hin | hin
        · rcases List.mem_cons.mp hin with rfl | hin'
          · exact absurd rfl hqa
          · exact List.mem_append.mpr (Or.inl hin')
        · exact List.mem_append.mpr (Or.inr hin)
      obtain ⟨l1, l2, hsp, hkey⟩ := ih p q this
      exact ⟨a :: l1, l2, by rw [hsp]; rfl, hkey⟩

theorem segTrace_split2 (b : List Nat) : ∀ fuel off offs p,
    segTraceAux b fuel off = some (offs, p) →
    ∀ l1 l2, offs = l1 ++ l2 →
    b.take (match l2 with | [] => p | o :: _ => o) =
      b.take off ++ (l1.map (segAt b)).flatten ∧
    b.drop (match l2 with | [] => p | o :: _ => o) =
      (l2.map (segAt b)).flatten ++ b.drop p := by
  intro fuel
  induction fuel with
  | zero => intro off offs p h; simp [segTraceAux] at h
  | succ g ih =>
    intro off offs p h l1 l2 hsp
    have hmain := segTrace_main b (g + 1) off offs p h
    simp only [segTraceAux] at h
    split at h
    case isFalse hg => exact absurd h (by simp)
    case isTrue hg =>
    split at h
    case isTrue hff => exact absurd h (by simp)
    case isFalse hff =>
    split at h
    case isTrue hda =>
      have hop : offs = [] ∧ p = off := by
        have h2 := Option.some.inj h
        rw [Prod.mk.injEq] at h2
        exact ⟨h2.1.symm, h2.2.symm⟩
      obtain ⟨ho, hp⟩ := hop
      subst ho; subst hp
      have h1 : l1 = [] := by
        cases l1 with
        | nil => rfl
        | cons x xs => simp at hsp
      have h2 : l2 = [] := by
        cases l2 with
        | nil => rfl
        | cons x xs => rw [h1] at hsp; simp at hsp
      subst h1; subst h2
      simp
    case isFalse hda =>
    split at h
    case isTrue hd => exact absurd h (by simp)
    case isFalse hd =>
    rcases htr : segTraceAux b g (off + 2 + readLen b off) with _ | ⟨offs', p'⟩
    · rw [htr] at h; exact absurd h (by simp)
    · rw [htr] at h
      have h2 := Option.some.inj h
      rw [Prod.mk.injEq] at h2
      obtain ⟨hoffs, hpp⟩ := h2
      subst hpp
      subst hoffs
      cases l1 with
      | nil =>
        simp only [List.nil_append] at hsp
        subst hsp
        refine ⟨by simp, ?_⟩
        show b.drop off = _
        rw [hmain.2.2.2]
      | cons x l1' =>
        rw [List.cons_append, List.cons.injEq] at hsp
        obtain ⟨rfl, hsp'⟩ := hsp
        obtain ⟨ihtake, ihdrop⟩ := ih _ _ _ htr l1' l2 hsp'
        refine ⟨?_, ihdrop⟩
        rw [ihtake, take_slice_split b off (off + 2 + readLen b off) (by omega)]
        simp only [List.map_cons, List.flatten_cons, segAt, List.append_assoc]

theorem canonical_of_trace (b : List Nat) (offs : List Nat) (p : Nat)
    (hj : isJpeg b = true) (htr : segTrace b = some (offs, p)) :
    Canonical b (offs.map (segAt b)) (b.drop p) := by
  obtain ⟨hhead, hp, hmem, hdec⟩ := segTrace_main b b.length 2 offs p htr
  have hlen2 : 2 ≤ b.length := by omega
  have hjp : getByte b 0 = 0xff ∧ getByte b 1 = 0xd8 := by
    simp only [isJpeg, Bool.and_eq_true, beq_iff_eq] at hj
    exact hj
  refine ⟨?_, ?_, ?_, ?_, ?_⟩
  · conv_lhs => rw [← List.take_append_drop 2 b]
    rw [take_two b hlen2, hjp.1, hjp.2, hdec]
    simp [List.append_assoc]
  · intro s hs
    rw [List.mem_map] at hs
    obtain ⟨o, ho, rfl⟩ := hs
    exact segTrace_wfSeg b b.length 2 offs p htr o ho
  · rw [getByte_drop, Nat.add_zero]
    exact hp.1
  · rw [getByte_drop]
    exact hp.2.1
  · simp only [List.length_drop]
    omega

theorem trace_of_canonical (b : List Nat) (segs : List (List Nat)) (tail : List Nat)
    (hc : Canonical b segs tail) :
    segTrace b = some (offsetsFrom 2 segs, 2 + segs.flatten.length) ∧
    (offsetsFrom 2 segs).map (segAt b) = segs ∧
    b.drop (2 + segs.flatten.length) = tail ∧
    isJpeg b = true := by
  obtain ⟨hb, hwf, ht0, ht1, ht4⟩ := hc
  have hblen : b.length = 2 + segs.flatten.length + tail.length := by
    rw [hb]; simp; omega
  have hbr : b = [0xff, 0xd8] ++ (segs.flatten ++ tail) := by
    rw [hb]; simp [List.append_assoc]
  have hct := canonical_trace tail ht0 ht1 ht4 segs [0xff, 0xd8] b.length hwf (by omega)
  rw [← hbr] at hct
  have h2 : ([0xff, 0xd8] : List Nat).length = 2 := rfl
  rw [h2] at hct
  refine ⟨?_, hct.2, ?_, ?_⟩
  · show segTraceAux b b.length 2 = _
    exact hct.1
  · rw [hb]
    rw [show ([0xff, 0xd8] : List Nat) ++ segs.flatten ++ tail =
      (([0xff, 0xd8] : List Nat) ++ segs.flatten) ++ tail from rfl]
    rw [show 2 + segs.flatten.length =
      (([0xff, 0xd8] : List Nat) ++ segs.flatten).length from by simp; omega]
    exact List.drop_left _ _
  · rw [hb]
    rfl

theorem countSig_canonical (b : List Nat) (segs : List (List Nat)) (tail : List Nat)
    (m : Nat) (sig : List Nat) (hc : Canonical b segs tail) :
    countSig m sig b = (segs.filter (isSigSeg m sig)).length := by
  obtain ⟨htr, hmap, -, -⟩ := trace_of_canonical b segs tail hc
  simp only [countSig, htr, hmap]

theorem isJpeg_eq (b : List Nat) (hj : isJpeg b = true) :
    getByte b 0 = 0xff ∧ getByte b 1 = 0xd8 := by
  simpa [isJpeg] using hj

theorem filter_map_congr {α β : Type} (f : α → β) (p : α → Bool) (q : β → Bool) :
    ∀ l : List α, (∀ x ∈ l, p x = q (f x)) →
      (l.filter p).map f = (l.map f).filter q := by
  intro l
  induction l with
  | nil => intro _; rfl
  | cons a l ih =>
    intro h
    have ha := h a (by simp)
    have ihr := ih (fun x hx => h x (List.mem_cons_of_mem _ hx))
    by_cases hp : p a = true
    · rw [List.filter_cons_of_pos hp, List.map_cons, List.map_cons,
        List.filter_cons_of_pos (by rw [← ha]; exact hp), ihr]
    · rw [List.filter_cons_of_neg (by simpa using hp), List.map_cons,
        List.filter_cons_of_neg (by rw [← ha]; simpa using hp), ihr]

theorem isPhotoshopAt_iff (b : List Nat) (fuel off : Nat) (offs : List Nat) (p o : Nat)
    (htr : segTraceAux b fuel off = some (offs, p)) (ho : o ∈ offs) :
    isPhotoshopAt b o = true ↔ sigMatchesAt b (o + 4) psHeader = true := by
  obtain ⟨-, hp, hmem, -⟩ := segTrace_main b fuel off offs p htr
  obtain ⟨m1, m2, m3, m4, m5, m6, m7, m8⟩ := hmem o ho
  constructor
  · intro h
    rw [sigMatchesAt_iff]
    intro i hi
    simp only [isPhotoshopAt, List.all_eq_true, List.mem_range] at h
    have := h i hi
    simp only [Bool.and_eq_true, beq_iff_eq, decide_eq_true_eq] at this
    exact this.2
  · intro h
    have hcont := sig_contained b fuel off offs p o psHeader htr ho (by decide) h
    simp only [isPhotoshopAt, List.all_eq_true, List.mem_range]
    intro i hi
    simp only [Bool.and_eq_true, beq_iff_eq, decide_eq_true_eq]
    refine ⟨by omega, ?_⟩
    exact (sigMatchesAt_iff b (o + 4) psHeader).mp h i hi

theorem psflag_eq (b : List Nat) (fuel off : Nat) (offs : List Nat) (p o : Nat)
    (htr : segTraceAux b fuel off = some (offs, p)) (ho : o ∈ offs) :
    (getByte b (o + 1) == 0xed && isPhotoshopAt b o) =
      isSigSeg 0xed psHeader (segAt b o) := by
  have hiff := isSigSeg_iff b fuel off offs p o 0xed psHeader htr ho (by decide) (by decide)
  have hps := isPhotoshopAt_iff b fuel off offs p o htr ho
  cases hA : (getByte b (o + 1) == 0xed && isPhotoshopAt b o) <;>
    cases hB : isSigSeg 0xed psHeader (segAt b o)
  · rfl
  · exfalso
    obtain ⟨h1, h2⟩ := hiff.mp hB
    rw [Bool.and_eq_false_iff] at hA
    rcases hA with hA | hA
    · simp [h1] at hA
    · rw [← hps] at h2
      simp [hA] at h2
  · exfalso
    rw [Bool.and_eq_true] at hA
    have := hiff.mpr ⟨by simpa using hA.1, hps.mp hA.2⟩
    rw [hB] at this
    exact Bool.noConfusion this
  · rfl

theorem remove_segs (b : List Nat) (offs : List Nat) (p : Nat)
    (hj : isJpeg b = true) (htr : segTrace b = some (offs, p)) :
    removePhotoshopApp13Segments b =
      [0xff, 0xd8] ++
        ((offs.map (segAt b)).filter (fun s => !isSigSeg 0xed psHeader s)).flatten ++
        b.drop p := by
  have hrm := removeAux_trace b b.length 2 offs p htr
  have hfm : (offs.filter (fun o => !(getByte b (o + 1) == 0xed && isPhotoshopAt b o))).map
      (segAt b) = (offs.map (segAt b)).filter (fun s => !isSigSeg 0xed psHeader s) := by
    apply filter_map_congr
    intro o ho
    rw [psflag_eq b b.length 2 offs p o htr ho]
  obtain ⟨-, hp, -, -⟩ := segTrace_main b b.length 2 offs p htr
  have hout : removePhotoshopApp13Segments b = b.take 2 ++ removeAux b b.length 2 := by
    simp [removePhotoshopApp13Segments, hj]
  rw [hout, hrm, hfm, take_two b (by omega), (isJpeg_eq b hj).1, (isJpeg_eq b hj).2]
  simp [List.append_assoc]


theorem tail_props (b : List Nat) (p : Nat) (h0 : getByte b p = 0xff)
    (h1 : getByte b (p + 1) = 0xda) (h4 : p + 4 ≤ b.length) :
    getByte (b.drop p) 0 = 0xff ∧ getByte (b.drop p) 1 = 0xda ∧
      4 ≤ (b.drop p).length := by
  refine ⟨?_, ?_, ?_⟩
  · rw [getByte_drop, Nat.add_zero]; exact h0
  · rw [getByte_drop]; exact h1
  · simp only [List.length_drop]; omega

theorem remove_canonical (b : List Nat) (offs : List Nat) (p : Nat)
    (hj : isJpeg b = true) (htr : segTrace b = some (offs, p)) :
    Canonical (removePhotoshopApp13Segments b)
      ((offs.map (segAt b)).filter (fun s => !isSigSeg 0xed psHeader s)) (b.drop p) := by
  obtain ⟨-, hp, -, -⟩ := segTrace_main b b.length 2 offs p htr
  obtain ⟨t0, t1, t4⟩ := tail_props b p hp.1 hp.2.1 hp.2.2
  refine ⟨?_, ?_, t0, t1, t4⟩
  · exact remove_segs b offs p hj htr
  · intro s hs
    have hs' := List.mem_of_mem_filter hs
    rw [List.mem_map] at hs'
    obtain ⟨o, ho, rfl⟩ := hs'
    exact segTrace_wfSeg b b.length 2 offs p htr o ho

theorem insertIptc_canonical (b S : List Nat) (offs : List Nat) (p : Nat)
    (hj : isJpeg b = true) (htr : segTrace b = some (offs, p)) (hwfS : wfSeg S) :
    ∃ before after, offs.map (segAt b) = before ++ after ∧
      Canonical (insertIptcIntoJpeg b S) (before ++ S :: after) (b.drop p) := by
  obtain ⟨hhead, hp, hmem, hdec⟩ := segTrace_main b b.length 2 offs p htr
  have hq := insertScan_trace b b.length 2 offs p 2 htr
  have hqmem : insertAppScan b b.length 2 2 ∈ offs ++ [p] := by
    rw [hq]
    rcases List.mem_cons.mp (foldl_last_mem (fun o => o + 2 + readLen b o)
      (offs.filter (fun o => 0xe0 ≤ getByte b (o + 1) && getByte b (o + 1) ≤ 0xef))
      2) with he | hm
    · rw [he]; exact hhead
    · rw [List.mem_map] at hm
      obtain ⟨o, hofil, heq⟩ := hm
      rw [← heq]
      exact (hmem o (List.mem_of_mem_filter hofil)).2.2.2.2.2.2.2
  obtain ⟨l1, l2, hsp, hkey⟩ := mem_split_key offs p (insertAppScan b b.length 2 2) hqmem
  obtain ⟨htake, hdrop⟩ := segTrace_split2 b b.length 2 offs p htr l1 l2 hsp
  rw [hkey] at htake hdrop
  obtain ⟨t0, t1, t4⟩ := tail_props b p hp.1 hp.2.1 hp.2.2
  refine ⟨l1.map (segAt b), l2.map (segAt b), by rw [hsp]; simp, ?_, ?_, t0, t1, t4⟩
  · have hout : insertIptcIntoJpeg b S =
        b.take (insertAppScan b b.length 2 2) ++ S ++
          b.drop (insertAppScan b b.length 2 2) := by
      simp [insertIptcIntoJpeg, hj]
    rw [hout, htake, hdrop, take_two b (by omega), (isJpeg_eq b hj).1,
      (isJpeg_eq b hj).2]
    simp [List.append_assoc]
  · intro s hs
    rcases List.mem_append.mp hs with hin | hin
    · rw [List.mem_map] at hin
      obtain ⟨o, ho, rfl⟩ := hin
      exact segTrace_wfSeg b b.length 2 offs p htr o
        (by rw [hsp]; exact List.mem_append.mpr (Or.inl ho))
    · rcases List.mem_cons.mp hin with rfl | hin'
      · exact hwfS
      · rw [List.mem_map] at hin'
        obtain ⟨o, ho, rfl⟩ := hin'
        exact segTrace_wfSeg b b.length 2 offs p htr o
          (by rw [hsp]; exact List.mem_append.mpr (Or.inr ho))

theorem insertXmp_canonical (b S : List Nat) (offs : List Nat) (p : Nat)
    (hj : isJpeg b = true) (htr : segTrace b = some (offs, p)) (hwfS : wfSeg S) :
    ∃ before after,
      Canonical (insertXmpIntoJpeg b S) (before ++ S :: after) (b.drop p) ∧
      (∀ s ∈ before, isSigSeg 0xe1 xmpSig s = false) ∧
      ((offs.map (segAt b) = before ++ after ∧
        (∀ s ∈ after, isSigSeg 0xe1 xmpSig s = false)) ∨
       (∃ rep, offs.map (segAt b) = before ++ rep :: after ∧
        isSigSeg 0xe1 xmpSig rep = true)) := by
  obtain ⟨hhead, hp, hmem, hdec⟩ := segTrace_main b b.length 2 offs p htr
  obtain ⟨t0, t1, t4⟩ := tail_props b p hp.1 hp.2.1 hp.2.2
  have hnoff : ∀ i < xmpSig.length, xmpSig.getD i 0 ≠ 0xff := by decide
  have hpos : 0 < xmpSig.length := by decide
  obtain ⟨hfs, hfn⟩ := findXmp_trace b b.length 2 offs p htr
  rcases hfind : findXmpAux b b.length 2 with _ | ⟨s0, t⟩
  · -- no existing XMP: insert after last APPn
    have hq := insertScan_trace b b.length 2 offs p 2 htr
    have hqmem : insertAppScan b b.length 2 2 ∈ offs ++ [p] := by
      rw [hq]
      rcases List.mem_cons.mp (foldl_last_mem (fun o => o + 2 + readLen b o)
        (offs.filter (fun o => 0xe0 ≤ getByte b (o + 1) && getByte b (o + 1) ≤ 0xef))
        2) with he | hm
      · rw [he]; exact hhead
      · rw [List.mem_map] at hm
        obtain ⟨o, hofil, heq⟩ := hm
        rw [← heq]
        exact (hmem o (List.mem_of_mem_filter hofil)).2.2.2.2.2.2.2
    obtain ⟨l1, l2, hsp, hkey⟩ := mem_split_key offs p (insertAppScan b b.length 2 2) hqmem
    obtain ⟨htake, hdrop⟩ := segTrace_split2 b b.length 2 offs p htr l1 l2 hsp
    rw [hkey] at htake hdrop
    have hnomatch : ∀ o ∈ offs, isSigSeg 0xe1 xmpSig (segAt b o) = false := by
      intro o ho
      have hglob := hfn hfind o ho
      rcases hb : isSigSeg 0xe1 xmpSig (segAt b o) with _ | _
      · rfl
      · exfalso
        exact hglob ((isSigSeg_iff b b.length 2 offs p o 0xe1 xmpSig htr ho hpos hnoff).mp hb)
    refine ⟨l1.map (segAt b), l2.map (segAt b), ⟨?_, ?_, t0, t1, t4⟩, ?_, Or.inl ⟨by rw [hsp]; simp, ?_⟩⟩
    · have hout : insertXmpIntoJpeg b S =
          b.take (insertAppScan b b.length 2 2) ++ S ++
            b.drop (insertAppScan b b.length 2 2) := by
        simp only [insertXmpIntoJpeg, hj, Bool.true_eq_false, if_false, findExistingXmp,
          if_true, hfind]
      rw [hout, htake, hdrop, take_two b (by omega), (isJpeg_eq b hj).1,
        (isJpeg_eq b hj).2]
      simp [List.append_assoc]
    · intro s hs
      rcases List.mem_append.mp hs with hin | hin
      · rw [List.mem_map] at hin
        obtain ⟨o, ho, rfl⟩ := hin
        exact segTrace_wfSeg b b.length 2 offs p htr o
          (by rw [hsp]; exact List.mem_append.mpr (Or.inl ho))
      · rcases List.mem_cons.mp hin with rfl | hin'
        · exact hwfS
        · rw [List.mem_map] at hin'
          obtain ⟨o, ho, rfl⟩ := hin'
          exact segTrace_wfSeg b b.length 2 offs p htr o
            (by rw [hsp]; exact List.mem_append.mpr (Or.inr ho))
    · intro s hs
      rw [List.mem_map] at hs
      obtain ⟨o, ho, rfl⟩ := hs
      exact hnomatch o (by rw [hsp]; exact List.mem_append.mpr (Or.inl ho))
    · intro s hs
      rw [List.mem_map] at hs
      obtain ⟨o, ho, rfl⟩ := hs
      exact hnomatch o (by rw [hsp]; exact List.mem_append.mpr (Or.inr ho))
  · -- replace the existing XMP segment
    obtain ⟨l1, l2, hsp, ht, he1, hsg, hl1no⟩ := hfs s0 t hfind
    obtain ⟨htake, hdrop⟩ := segTrace_split2 b b.length 2 offs p htr l1 (s0 :: l2) hsp
    have hs0mem : s0 ∈ offs := by rw [hsp]; simp
    obtain ⟨q1, q2, q3, q4, q5, q6, q7, q8⟩ := hmem s0 hs0mem
    have hseglen : (segAt b s0).length = 2 + readLen b s0 :=
      segAt_length b s0 (by omega)
    have hdropst : b.drop (s0 + t) = ((l2.map (segAt b)).flatten ++ b.drop p) := by
      have h1 : b.drop (s0 + t) = (b.drop s0).drop t := by
        rw [List.drop_drop]
      rw [h1, hdrop]
      simp only [List.map_cons, List.flatten_cons, List.append_assoc]
      rw [ht, ← hseglen, List.drop_left]
    refine ⟨l1.map (segAt b), l2.map (segAt b), ⟨?_, ?_, t0, t1, t4⟩, ?_,
      Or.inr ⟨segAt b s0, by rw [hsp]; simp, (isSigSeg_iff b b.length 2 offs p s0 0xe1
        xmpSig htr hs0mem hpos hnoff).mpr ⟨he1, hsg⟩⟩⟩
    · have hout : insertXmpIntoJpeg b S = b.take s0 ++ S ++ b.drop (s0 + t) := by
        simp only [insertXmpIntoJpeg, hj, Bool.true_eq_false, if_false, findExistingXmp,
          if_true, hfind, replaceSegment]
      rw [hout, htake, hdropst, take_two b (by omega), (isJpeg_eq b hj).1,
        (isJpeg_eq b hj).2]
      simp [List.append_assoc]
    · intro s hs
      rcases List.mem_append.mp hs with hin | hin
      · rw [List.mem_map] at hin
        obtain ⟨o, ho, rfl⟩ := hin
        exact segTrace_wfSeg b b.length 2 offs p htr o
          (by rw [hsp]; exact List.mem_append.mpr (Or.inl ho))
      · rcases List.mem_cons.mp hin with rfl | hin'
        · exact hwfS
        · rw [List.mem_map] at hin'
          obtain ⟨o, ho, rfl⟩ := hin'
          exact segTrace_wfSeg b b.length 2 offs p htr o
            (by rw [hsp]
                exact List.mem_append.mpr (Or.inr (List.mem_cons_of_mem _ ho)))
    · intro s hs
      rw [List.mem_map] at hs
      obtain ⟨o, ho, rfl⟩ := hs
      have hol1 : o ∈ offs := by rw [hsp]; exact List.mem_append.mpr (Or.inl ho)
      rcases hb : isSigSeg 0xe1 xmpSig (segAt b o) with _ | _
      · rfl
      · exfalso
        exact hl1no o ho ((isSigSeg_iff b b.length 2 offs p o 0xe1 xmpSig htr hol1
          hpos hnoff).mp hb)

/-- Witness for C4 at the concrete buffer `exSkip`. -/
theorem claim_c4_marker_scanner_contract_witness :
    findXmpAux exSkip 8 2 = findXmpAux exSkip 7 4 ∧
    findXmpAux exSkip 8 4 = none ∧
    insertAppScan exSkip 8 2 2 = insertAppScan exSkip 7 4 2 ∧
    insertAppScan exSkip 8 4 2 = 2 ∧
    removeAux exSkip 8 4 = exSkip.drop 4 ∧
    removeAux exSkip 8 2 =
      jsSlice exSkip 2 (2 + 2 + readLen exSkip 2) ++
        removeAux exSkip 7 (2 + 2 + readLen exSkip 2) :=
  ⟨claim_c4_marker_scanner_contract.1 exSkip 7 2 (by decide) (by decide) (by decide),
   claim_c4_marker_scanner_contract.2.1 exSkip 7 4 (by decide),
   claim_c4_marker_scanner_contract.2.2.2.1 exSkip 7 2 2 (by decide) (by decide)
     (by decide),
   claim_c4_marker_scanner_contract.2.2.2.2.1 exSkip 7 4 2 (by decide),
   claim_c4_marker_scanner_contract.2.2.2.2.2.2.1 exSkip 7 4 (by decide) (by decide),
   claim_c4_marker_scanner_contract.2.2.2.2.2.2.2.2 exSkip 7 2 (by decide) (by decide)
     (by decide)⟩


theorem buildXmpSegment_struct (xml : String) :
    buildXmpSegment xml =
      0xff :: 0xe1 :: ((xmpSig ++ utf8Str xml).length + 2) / 256 % 256 ::
        ((xmpSig ++ utf8Str xml).length + 2) % 256 :: (xmpSig ++ utf8Str xml) := by
  simp only [buildXmpSegment, List.cons_append, List.nil_append]

theorem wf_buildXmpSegment (xml : String) (h : 31 + (utf8Str xml).length ≤ 65535) :
    wfSeg (buildXmpSegment xml) := by
  have h29 : xmpSig.length = 29 := by decide
  have hpl : (xmpSig ++ utf8Str xml).length = 29 + (utf8Str xml).length := by
    simp [h29]
  rw [buildXmpSegment_struct]
  refine ⟨by simp, rfl, ?_, ?_, ?_, ?_⟩
  · show (0xe1 : Nat) ≠ 0xda
    decide
  · show (0xe1 : Nat) ≠ 0xd8
    decide
  · show (0xe1 : Nat) ≠ 0xd9
    decide
  · show readLen _ 0 = _
    rw [readLen_cons4]
    simp only [List.length_cons, hpl]
    omega

theorem isXmp_buildXmpSegment (xml : String) :
    isSigSeg 0xe1 xmpSig (buildXmpSegment xml) = true := by
  rw [buildXmpSegment_struct]
  generalize ((xmpSig ++ utf8Str xml).length + 2) / 256 % 256 = x
  generalize ((xmpSig ++ utf8Str xml).length + 2) % 256 = y
  simp only [isSigSeg]
  have h1 : getByte (0xff :: 0xe1 :: x :: y :: (xmpSig ++ utf8Str xml)) 1 = 0xe1 := rfl
  have h2 : (0xff :: 0xe1 :: x :: y :: (xmpSig ++ utf8Str xml) : List Nat).drop 4 =
      xmpSig ++ utf8Str xml := rfl
  rw [h1, h2, List.take_left]
  simp

theorem notPs_buildXmpSegment (xml : String) :
    isSigSeg 0xed psHeader (buildXmpSegment xml) = false := by
  rw [buildXmpSegment_struct]
  generalize ((xmpSig ++ utf8Str xml).length + 2) / 256 % 256 = x
  generalize ((xmpSig ++ utf8Str xml).length + 2) % 256 = y
  simp only [isSigSeg]
  have h1 : (getByte (0xff :: 0xe1 :: x :: y :: (xmpSig ++ utf8Str xml)) 1 == 0xed) = false :=
    rfl
  rw [h1, Bool.false_and]

theorem buildIptcSegment_struct (t c : String) (kws : List String) :
    ∃ blk : List Nat, blk.length = (iptcPayload t c kws).length + 26 +
        (if (iptcPayload t c kws).length % 2 = 1 then 1 else 0) ∧
      blk.take psHeader.length = psHeader ∧
      buildIptcSegment t c kws =
        0xff :: 0xed :: (blk.length + 2) / 256 % 256 ::
          (blk.length + 2) % 256 :: blk := by
  refine ⟨psHeader ++ utf8Str "8BIM" ++ [0x04, 0x04] ++ [0x00, 0x00] ++
    [(iptcPayload t c kws).length / 16777216 % 256,
     (iptcPayload t c kws).length / 65536 % 256,
     (iptcPayload t c kws).length / 256 % 256, (iptcPayload t c kws).length % 256] ++
    iptcPayload t c kws ++
    (if (iptcPayload t c kws).length % 2 = 1 then [0x00] else []), ?_, ?_, ?_⟩
  · have h14 : psHeader.length = 14 := by decide
    have h4b : (utf8Str "8BIM").length = 4 := by decide
    by_cases hp : (iptcPayload t c kws).length % 2 = 1 <;>
      simp [hp, h14, h4b] <;> omega
  · simp only [List.append_assoc]
    rw [List.take_left]
  · simp only [buildIptcSegment, List.cons_append, List.nil_append]

theorem wf_buildIptcSegment (t c : String) (kws : List String)
    (h : (iptcPayload t c kws).length ≤ 65506) :
    wfSeg (buildIptcSegment t c kws) := by
  obtain ⟨blk, hlen, -, hstr⟩ := buildIptcSegment_struct t c kws
  have hb : blk.length ≤ 65533 := by split at hlen <;> omega
  rw [hstr]
  refine ⟨by simp, rfl, ?_, ?_, ?_, ?_⟩
  · show (0xed : Nat) ≠ 0xda
    decide
  · show (0xed : Nat) ≠ 0xd8
    decide
  · show (0xed : Nat) ≠ 0xd9
    decide
  · show readLen _ 0 = _
    rw [readLen_cons4]
    simp only [List.length_cons]
    omega

theorem isPs_buildIptcSegment (t c : String) (kws : List String) :
    isSigSeg 0xed psHeader (buildIptcSegment t c kws) = true := by
  obtain ⟨blk, -, htake, hstr⟩ := buildIptcSegment_struct t c kws
  rw [hstr]
  generalize (blk.length + 2) / 256 % 256 = x
  generalize (blk.length + 2) % 256 = y
  simp only [isSigSeg]
  have h1 : getByte (0xff :: 0xed :: x :: y :: blk) 1 = 0xed := rfl
  have h2 : (0xff :: 0xed :: x :: y :: blk : List Nat).drop 4 = blk := rfl
  rw [h1, h2, htake]
  simp

theorem notXmp_buildIptcSegment (t c : String) (kws : List String) :
    isSigSeg 0xe1 xmpSig (buildIptcSegment t c kws) = false := by
  obtain ⟨blk, -, -, hstr⟩ := buildIptcSegment_struct t c kws
  rw [hstr]
  generalize (blk.length + 2) / 256 % 256 = x
  generalize (blk.length + 2) % 256 = y
  simp only [isSigSeg]
  have h1 : (getByte (0xff :: 0xed :: x :: y :: blk) 1 == 0xe1) = false := rfl
  rw [h1, Bool.false_and]


theorem lastAppEnd_eq_scan (b : List Nat) (offs : List Nat) (p : Nat)
    (htr : segTrace b = some (offs, p)) :
    lastAppEnd b = insertAppScan b b.length 2 2 := by
  rw [lastAppEnd, htr, insertScan_trace b b.length 2 offs p 2 htr]

/-- **C3**: on any JPEG whose marker walk reaches SOS, the shared
insertion scan of `insertXmpIntoJpeg` and `insertIptcIntoJpeg` returns
the end offset of the last APPn (`0xE0`–`0xEF`) segment (2 when there is
none), that position never exceeds the SOS offset, and both insertions
splice the new segment at exactly that position, so an APPn run that
ends at the byte before SOS receives the new segment with zero gap or
overlap. -/
theorem claim_c3_insertion_position (b S : List Nat) (offs : List Nat) (p : Nat)
    (hj : isJpeg b = true) (htr : segTrace b = some (offs, p)) :
    insertAppScan b b.length 2 2 = lastAppEnd b ∧
    findSOS b = some p ∧
    lastAppEnd b ≤ p ∧
    ((∀ o ∈ offs, ¬(0xe0 ≤ getByte b (o + 1) ∧ getByte b (o + 1) ≤ 0xef)) →
      lastAppEnd b = 2) ∧
    insertIptcIntoJpeg b S =
      b.take (lastAppEnd b) ++ S ++ b.drop (lastAppEnd b) ∧
    (findExistingXmp b = none →
      insertXmpIntoJpeg b S =
        b.take (lastAppEnd b) ++ S ++ b.drop (lastAppEnd b)) := by
  have hsos : markerScanSOS b b.length 2 = some p := segTrace_sos b b.length 2 offs p htr
  have h2p : 2 ≤ p := sos_ge b b.length 2 p hsos
  have hlae := lastAppEnd_eq_scan b offs p htr
  refine ⟨hlae.symm, hsos, ?_, ?_, ?_, ?_⟩
  · rw [hlae]
    exact insertScan_le_sos b b.length 2 2 p hsos h2p
  · intro hno
    have hnil : offs.filter
        (fun o => 0xe0 ≤ getByte b (o + 1) && getByte b (o + 1) ≤ 0xef) = [] := by
      rw [List.filter_eq_nil]
      intro o ho
      simp only [Bool.and_eq_true, decide_eq_true_eq, not_and]
      intro h1 h2
      exact hno o ho ⟨h1, h2⟩
    have hfold : lastAppEnd b =
        List.foldl (fun _ o => o + 2 + readLen b o) 2
          (offs.filter
            (fun o => 0xe0 ≤ getByte b (o + 1) && getByte b (o + 1) ≤ 0xef)) := by
      rw [lastAppEnd, htr]
    rw [hfold, hnil]
    rfl
  · rw [hlae]
    simp [insertIptcIntoJpeg, hj]
  · intro hnone
    rw [hlae]
    simp [insertXmpIntoJpeg, hj, hnone]

/-- Witness for **C3** at `exApp0`, whose single APP0 segment ends
exactly at the bytes of SOS (`lastAppEnd = 8 = ` SOS offset). -/
theorem claim_c3_insertion_position_witness :
    isJpeg exApp0 = true ∧ segTrace exApp0 = some ([2], 8) ∧
    (insertAppScan exApp0 exApp0.length 2 2 = lastAppEnd exApp0 ∧
     findSOS exApp0 = some 8 ∧
     lastAppEnd exApp0 ≤ 8 ∧
     ((∀ o ∈ [2], ¬(0xe0 ≤ getByte exApp0 (o + 1) ∧ getByte exApp0 (o + 1) ≤ 0xef)) →
       lastAppEnd exApp0 = 2) ∧
     insertIptcIntoJpeg exApp0 [0x09] =
       exApp0.take (lastAppEnd exApp0) ++ [0x09] ++ exApp0.drop (lastAppEnd exApp0) ∧
     (findExistingXmp exApp0 = none →
       insertXmpIntoJpeg exApp0 [0x09] =
         exApp0.take (lastAppEnd exApp0) ++ [0x09] ++
           exApp0.drop (lastAppEnd exApp0))) :=
  ⟨by decide, by decide,
    claim_c3_insertion_position exApp0 [0x09] [2] 8 (by decide) (by decide)⟩


theorem suffix_of_canonical (b : List Nat) (p : Nat) (out : List Nat)
    (segs : List (List Nat)) (hc : Canonical out segs (b.drop p)) :
    SuffixFrom b p out :=
  ⟨[0xff, 0xd8] ++ segs.flatten, by rw [hc.1]⟩

theorem suffix_splice (b S : List Nat) (pos q p : Nat) (hq : q ≤ p) :
    SuffixFrom b p (b.take pos ++ S ++ b.drop q) := by
  refine ⟨b.take pos ++ S ++ (b.drop q).take (p - q), ?_⟩
  have hdd : (b.drop q).drop (p - q) = b.drop p := by
    rw [List.drop_drop]
    congr 1
    omega
  conv_lhs => rw [← List.take_append_drop (p - q) (b.drop q), hdd]
  simp [List.append_assoc]

theorem filter_sub_nil (q : List Nat → Bool) (l : List (List Nat))
    (h : ∀ s ∈ l, q s = false) : l.filter q = [] := by
  rw [List.filter_eq_nil]
  intro s hs
  simp [h s hs]

theorem pipeline_canonical (b : List Nat) (offs : List Nat) (p : Nat)
    (t c d : String) (kws : List String)
    (hj : isJpeg b = true) (htr : segTrace b = some (offs, p))
    (hszX : 31 + (utf8Str (buildXmpXml t d kws)).length ≤ 65535)
    (hszI : (iptcPayload t c kws).length ≤ 65506) :
    ∃ segs, Canonical (segmentPipeline b t c d kws) segs (b.drop p) ∧
      (segs.filter (isSigSeg 0xed psHeader)).length = 1 ∧
      (countSig 0xe1 xmpSig b ≤ 1 →
        (segs.filter (isSigSeg 0xe1 xmpSig)).length = 1) := by
  set X := buildXmpSegment (buildXmpXml t d kws) with hXdef
  set I := buildIptcSegment t c kws with hIdef
  have hwfX : wfSeg X := wf_buildXmpSegment _ hszX
  have hwfI : wfSeg I := wf_buildIptcSegment t c kws hszI
  obtain ⟨bef, aft, hc1, hbefX, hcase⟩ := insertXmp_canonical b X offs p hj htr hwfX
  obtain ⟨htr1, hmap1, hdrop1, hj1⟩ := trace_of_canonical _ _ _ hc1
  have hc2 := remove_canonical (insertXmpIntoJpeg b X) _ _ hj1 htr1
  rw [hmap1, hdrop1] at hc2
  obtain ⟨htr2, hmap2, hdrop2, hj2⟩ := trace_of_canonical _ _ _ hc2
  obtain ⟨bef2, aft2, hsplit2, hc3⟩ := insertIptc_canonical _ I _ _ hj2 htr2 hwfI
  rw [hmap2] at hsplit2
  rw [hdrop2] at hc3
  have hsub : ∀ s, s ∈ bef2 ∨ s ∈ aft2 → s ∈ bef ++ X :: aft ∧
      (!isSigSeg 0xed psHeader s) = true := by
    intro s hs
    have hmem : s ∈ bef2 ++ aft2 := List.mem_append.mpr hs
    rw [← hsplit2] at hmem
    exact List.mem_filter.mp hmem
  refine ⟨bef2 ++ I :: aft2, hc3, ?_, ?_⟩
  · have hIps : isSigSeg 0xed psHeader I = true := isPs_buildIptcSegment t c kws
    have hb2 : bef2.filter (isSigSeg 0xed psHeader) = [] :=
      filter_sub_nil _ _ (fun s hs => by
        have := (hsub s (Or.inl hs)).2
        simpa using this)
    have ha2 : aft2.filter (isSigSeg 0xed psHeader) = [] :=
      filter_sub_nil _ _ (fun s hs => by
        have := (hsub s (Or.inr hs)).2
        simpa using this)
    rw [List.filter_append, List.filter_cons, hb2, ha2]
    simp [hIps]
  · intro hx
    have hxcount : ((offs.map (segAt b)).filter (isSigSeg 0xe1 xmpSig)).length ≤ 1 := by
      simpa [countSig, htr] using hx
    have hXxmp : isSigSeg 0xe1 xmpSig X = true := isXmp_buildXmpSegment _
    have hXps : isSigSeg 0xed psHeader X = false := notPs_buildXmpSegment _
    have hIxmp : isSigSeg 0xe1 xmpSig I = false := notXmp_buildIptcSegment t c kws
    have haft : ∀ s ∈ aft, isSigSeg 0xe1 xmpSig s = false := by
      rcases hcase with ⟨heq, haft⟩ | ⟨rep, heq, hrep⟩
      · exact haft
      · intro s hs
        by_contra hsx
        have hsx' : isSigSeg 0xe1 xmpSig s = true := by
          cases hval : isSigSeg 0xe1 xmpSig s
          · exact absurd hval hsx
          · rfl
        have hmemf : s ∈ aft.filter (isSigSeg 0xe1 xmpSig) :=
          List.mem_filter.mpr ⟨hs, hsx'⟩
        have hpos : 0 < (aft.filter (isSigSeg 0xe1 xmpSig)).length :=
          List.length_pos.mpr (List.ne_nil_of_mem hmemf)
        rw [heq, List.filter_append, List.filter_cons] at hxcount
        simp only [hrep, if_pos] at hxcount
        simp only [List.length_append, List.length_cons] at hxcount
        omega
    -- every element of bef2 ++ aft2 other than X is not the XMP segment
    have hside : ∀ s, s ∈ bef2 ∨ s ∈ aft2 → s ≠ X →
        isSigSeg 0xe1 xmpSig s = false := by
      intro s hs hne
      have hmem := (hsub s hs).1
      rcases List.mem_append.mp hmem with hb | hxa
      · exact hbefX s hb
      · rcases List.mem_cons.mp hxa with he | ha
        · exact absurd he hne
        · exact haft s ha
    -- the survivors of the removal keep exactly one XMP segment, `X`
    have hone : ((bef2 ++ aft2).filter (isSigSeg 0xe1 xmpSig)).length = 1 := by
      rw [← hsplit2]
      have hbn : (bef.filter (fun s => !isSigSeg 0xed psHeader s)).filter
          (isSigSeg 0xe1 xmpSig) = [] :=
        filter_sub_nil _ _ (fun s hs => hbefX s (List.mem_of_mem_filter hs))
      have han : (aft.filter (fun s => !isSigSeg 0xed psHeader s)).filter
          (isSigSeg 0xe1 xmpSig) = [] :=
        filter_sub_nil _ _ (fun s hs => haft s (List.mem_of_mem_filter hs))
      rw [List.filter_append, List.filter_cons]
      simp only [hXps, Bool.not_false, if_pos]
      rw [List.filter_append, List.filter_cons, hbn, han]
      simp [hXxmp]
    rw [List.filter_append, List.filter_cons]
    simp only [hIxmp, Bool.false_eq_true, if_neg, if_false]
    rw [List.filter_append] at hone
    simp only [List.length_append] at hone ⊢
    omega


/-- **C1** (amended): provided the buffer begins with SOI and the
spec's marker walk — which skips standalone SOI/EOI markers and steps
over length-bearing segments — reaches SOS at offset `p`
(`findSOS b = some p`), the XMP insert-or-replace and the IPTC insert
leave every byte from `p` to the end of the buffer verbatim as a suffix
of the output, for any inserted segment.  If in addition the walk from
SOI to SOS crosses only length-bearing segments, i.e. meets no
standalone SOI/EOI marker before SOS (`segTrace b = some (offs, p)`),
the Photoshop APP13 removal and the composed pipeline also preserve
every byte from `p` onward.  The extra condition on the removal is
necessary, not an artifact: its scan lacks the standalone-marker
branch, so at a stray SOI/EOI it misreads the next two bytes as a
length, desynchronises and can alter bytes after SOS (see the
counterexample); the unrestricted original claim is false. -/
theorem claim_c1_sos_preservation (b S : List Nat) (p : Nat)
    (t c d : String) (kws : List String)
    (hj : isJpeg b = true) (hsos : findSOS b = some p)
    (hszX : 31 + (utf8Str (buildXmpXml t d kws)).length ≤ 65535)
    (hszI : (iptcPayload t c kws).length ≤ 65506) :
    SuffixFrom b p (insertXmpIntoJpeg b S) ∧
    SuffixFrom b p (insertIptcIntoJpeg b S) ∧
    (∀ offs, segTrace b = some (offs, p) →
      SuffixFrom b p (removePhotoshopApp13Segments b) ∧
      SuffixFrom b p (segmentPipeline b t c d kws)) := by
  have hsos' : markerScanSOS b b.length 2 = some p := hsos
  have h2p : 2 ≤ p := sos_ge b b.length 2 p hsos'
  have hscan : insertAppScan b b.length 2 2 ≤ p :=
    insertScan_le_sos b b.length 2 2 p hsos' h2p
  refine ⟨?_, ?_, ?_⟩
  · rcases hfind : findExistingXmp b with _ | ⟨s0, t0⟩
    · have hout : insertXmpIntoJpeg b S =
          b.take (insertAppScan b b.length 2 2) ++ S ++
            b.drop (insertAppScan b b.length 2 2) := by
        simp [insertXmpIntoJpeg, hj, hfind]
      rw [hout]
      exact suffix_splice b S _ _ p hscan
    · have hfx : findXmpAux b b.length 2 = some (s0, t0) := by
        have := hfind
        rw [findExistingXmp, if_pos hj] at this
        exact this
      have hst := findXmp_le_sos b b.length 2 s0 t0 p hfx hsos'
      have hout : insertXmpIntoJpeg b S = b.take s0 ++ S ++ b.drop (s0 + t0) := by
        simp [insertXmpIntoJpeg, hj, hfind, replaceSegment]
      rw [hout]
      exact suffix_splice b S s0 (s0 + t0) p hst.1
  · have hout : insertIptcIntoJpeg b S =
        b.take (insertAppScan b b.length 2 2) ++ S ++
          b.drop (insertAppScan b b.length 2 2) := by
      simp [insertIptcIntoJpeg, hj]
    rw [hout]
    exact suffix_splice b S _ _ p hscan
  · intro offs htr
    refine ⟨suffix_of_canonical b p _ _ (remove_canonical b offs p hj htr), ?_⟩
    obtain ⟨segs, hc, -, -⟩ := pipeline_canonical b offs p t c d kws hj htr hszX hszI
    exact suffix_of_canonical b p _ _ hc

/-- Witness for **C1** on `exApp0` with empty metadata: the walk reaches
SOS at 8 (and the segment trace succeeds with offsets `[2]`), and every
operation keeps `exApp0.drop 8` as a suffix. -/
theorem claim_c1_sos_preservation_witness :
    isJpeg exApp0 = true ∧ findSOS exApp0 = some 8 ∧
    31 + (utf8Str (buildXmpXml "" "" [])).length ≤ 65535 ∧
    (iptcPayload "" "" []).length ≤ 65506 ∧
    segTrace exApp0 = some ([2], 8) ∧
    (SuffixFrom exApp0 8 (insertXmpIntoJpeg exApp0 [0x09]) ∧
     SuffixFrom exApp0 8 (insertIptcIntoJpeg exApp0 [0x09]) ∧
     (∀ offs, segTrace exApp0 = some (offs, 8) →
       SuffixFrom exApp0 8 (removePhotoshopApp13Segments exApp0) ∧
       SuffixFrom exApp0 8 (segmentPipeline exApp0 "" "" "" []))) :=
  ⟨by decide, by decide, by decide, by decide, by decide,
    claim_c1_sos_preservation exApp0 [0x09] 8 "" "" "" []
      (by decide) (by decide) (by decide) (by decide)⟩

/-- **C1** counterexample: `exC1` begins with SOI and its first
`0xFF 0xDA` pair sits at offset 6, yet `removePhotoshopApp13Segments`
does not preserve the bytes from offset 6 onwards: the stray EOI at
offset 2 desynchronises the removal scan (it has no standalone-marker
branch), which then deletes a Photoshop APP13 segment lying beyond the
SOS pair, shrinking the 28-byte suffix to a 14-byte output. -/
theorem claim_c1_counterexample :
    getByte exC1 0 = 0xff ∧ getByte exC1 1 = 0xd8 ∧
    getByte exC1 6 = 0xff ∧ getByte exC1 7 = 0xda ∧
    (∀ i < 6, ¬(getByte exC1 i = 0xff ∧ getByte exC1 (i + 1) = 0xda)) ∧
    ¬SuffixFrom exC1 6 (removePhotoshopApp13Segments exC1) := by
  refine ⟨by decide, by decide, by decide, by decide, by decide, ?_⟩
  rintro ⟨pre, hpre⟩
  have h1 : (removePhotoshopApp13Segments exC1).length = 14 := by decide
  have h2 : (exC1.drop 6).length = 28 := by decide
  rw [hpre, List.length_append, h2] at h1
  omega


/-- **C2** (amended): provided the input JPEG's marker walk reaches SOS,
the input carries at most one XMP APP1 segment, and the constructed
segments fit their 16-bit length fields, one run of the segment pipeline
yields exactly one XMP APP1 segment and exactly one Photoshop-branded
APP13 segment, and a second run of the pipeline keeps both counts at
exactly one; the second run finds the existing XMP segment and replaces
it rather than adding a new one.  The unrestricted claim is false: with
two XMP segments already present, only the first is replaced and the
duplicate persists through both runs (see the counterexample). -/
theorem claim_c2_pipeline_idempotent (b : List Nat) (offs : List Nat) (p : Nat)
    (t c d : String) (kws : List String)
    (hj : isJpeg b = true) (htr : segTrace b = some (offs, p))
    (hx : countSig 0xe1 xmpSig b ≤ 1)
    (hszX : 31 + (utf8Str (buildXmpXml t d kws)).length ≤ 65535)
    (hszI : (iptcPayload t c kws).length ≤ 65506) :
    countSig 0xe1 xmpSig (segmentPipeline b t c d kws) = 1 ∧
    countSig 0xed psHeader (segmentPipeline b t c d kws) = 1 ∧
    countSig 0xe1 xmpSig
      (segmentPipeline (segmentPipeline b t c d kws) t c d kws) = 1 ∧
    countSig 0xed psHeader
      (segmentPipeline (segmentPipeline b t c d kws) t c d kws) = 1 ∧
    findExistingXmp (segmentPipeline b t c d kws) ≠ none := by
  obtain ⟨segs1, hc1, hps1, hxm1⟩ :=
    pipeline_canonical b offs p t c d kws hj htr hszX hszI
  have hx1 := hxm1 hx
  have hcnt1x : countSig 0xe1 xmpSig (segmentPipeline b t c d kws) = 1 := by
    rw [countSig_canonical _ segs1 (b.drop p) 0xe1 xmpSig hc1]
    exact hx1
  have hcnt1p : countSig 0xed psHeader (segmentPipeline b t c d kws) = 1 := by
    rw [countSig_canonical _ segs1 (b.drop p) 0xed psHeader hc1]
    exact hps1
  obtain ⟨htr1, hmap1, hdrop1, hj1⟩ := trace_of_canonical _ _ _ hc1
  obtain ⟨segs2, hc2, hps2, hxm2⟩ :=
    pipeline_canonical (segmentPipeline b t c d kws) (offsetsFrom 2 segs1)
      (2 + segs1.flatten.length) t c d kws hj1 htr1 hszX hszI
  have hcnt2x : countSig 0xe1 xmpSig
      (segmentPipeline (segmentPipeline b t c d kws) t c d kws) = 1 := by
    rw [countSig_canonical _ segs2 _ 0xe1 xmpSig hc2]
    exact hxm2 (le_of_eq hcnt1x)
  have hcnt2p : countSig 0xed psHeader
      (segmentPipeline (segmentPipeline b t c d kws) t c d kws) = 1 := by
    rw [countSig_canonical _ segs2 _ 0xed psHeader hc2]
    exact hps2
  refine ⟨hcnt1x, hcnt1p, hcnt2x, hcnt2p, ?_⟩
  intro hnone
  have hfx : findXmpAux (segmentPipeline b t c d kws)
      (segmentPipeline b t c d kws).length 2 = none := by
    simp only [findExistingXmp, hj1, if_true] at hnone
    exact hnone
  have hne : segs1.filter (isSigSeg 0xe1 xmpSig) ≠ [] := by
    intro hnil
    rw [hnil] at hx1
    simp at hx1
  obtain ⟨s, hsf⟩ := List.exists_mem_of_ne_nil _ hne
  obtain ⟨hsmem, hspred⟩ := List.mem_filter.mp hsf
  rw [← hmap1] at hsmem
  obtain ⟨o, ho, hos⟩ := List.mem_map.mp hsmem
  have hiff := isSigSeg_iff (segmentPipeline b t c d kws)
    (segmentPipeline b t c d kws).length 2 (offsetsFrom 2 segs1)
    (2 + segs1.flatten.length) o 0xe1 xmpSig htr1 ho (by decide) (by decide)
  rw [hos] at hiff
  obtain ⟨hbyte, hsigm⟩ := hiff.mp hspred
  exact (findXmp_trace (segmentPipeline b t c d kws)
      (segmentPipeline b t c d kws).length 2 (offsetsFrom 2 segs1)
      (2 + segs1.flatten.length) htr1).2 hfx o ho ⟨hbyte, hsigm⟩

/-- Witness for **C2** at `exSOSOnly` (no pre-existing segments) with
empty metadata. -/
theorem claim_c2_pipeline_idempotent_witness :
    isJpeg exSOSOnly = true ∧ segTrace exSOSOnly = some ([], 2) ∧
    countSig 0xe1 xmpSig exSOSOnly ≤ 1 ∧
    31 + (utf8Str (buildXmpXml "" "" [])).length ≤ 65535 ∧
    (iptcPayload "" "" []).length ≤ 65506 ∧
    (countSig 0xe1 xmpSig (segmentPipeline exSOSOnly "" "" "" []) = 1 ∧
     countSig 0xed psHeader (segmentPipeline exSOSOnly "" "" "" []) = 1 ∧
     countSig 0xe1 xmpSig
       (segmentPipeline (segmentPipeline exSOSOnly "" "" "" []) "" "" "" []) = 1 ∧
     countSig 0xed psHeader
       (segmentPipeline (segmentPipeline exSOSOnly "" "" "" []) "" "" "" []) = 1 ∧
     findExistingXmp (segmentPipeline exSOSOnly "" "" "" []) ≠ none) :=
  ⟨by decide, by decide, by decide, by decide, by decide,
    claim_c2_pipeline_idempotent exSOSOnly [] 2 "" "" "" []
      (by decide) (by decide) (by decide) (by decide) (by decide)⟩

/-- **C2** counterexample: `ex2Xmp` is a JPEG already carrying two XMP
APP1 segments; `findExistingXmp` replaces only the first, so even after
running the full pipeline twice the output still contains two XMP APP1
segments, not exactly one. -/
theorem claim_c2_counterexample :
    isJpeg ex2Xmp = true ∧
    countSig 0xe1 xmpSig ex2Xmp = 2 ∧
    countSig 0xe1 xmpSig
      (segmentPipeline (segmentPipeline ex2Xmp "" "" "" []) "" "" "" []) = 2 :=
  ⟨by decide, by decide, by decide⟩

end ImageTagsUpdater
